import Mathlib

/-!
# Front end and code generator of the `lang` / `radon` scripting language

A shallow embedding of

* `bytecode/instructions.go` (the opcode numbering),
* `compiler/statements.go` (statement compilation with jump patching),
* `parser/expressions.go` (the precedence-climbing expression parser),

followed by theorems about loop jump targets, `export` validation and
operator nesting.

Conventions of the embedding.

* A byte is a `Nat`; two-byte operands are built with explicit `% 256`.
* A Go `error` is an `Option String` (`none` is `nil`).  A compiler method
  `func (c *Compiler) f(..) error` becomes `Compiler → Error × Compiler`: the
  state after the call is returned on the error path as well.
* The Go `nil` interface value of `ast.Expression` / `ast.Statement` is the
  constructor `null`.
* Parser methods mutate `*Parser`; here they return the node together with
  the parser state.  Recursion of the parser is driven by a fuel argument.
-/

namespace Lang

/-! ## Tokens (package `token`, outside the sources; only what the code reads) -/

/-- Token kinds.  The constructors are the kinds the parser source names
(`token.Semi`, `token.RightParen`, ...); every other kind of the language
(identifiers, numbers, operators, keywords) is `Other` with its name. -/
inductive TokenType where
  | EOF
  | Semi
  | Comma
  | LeftParen
  | RightParen
  | RightSquare
  | LeftBrace
  | RightBrace
  | RightArrow
  | True
  | If
  | Then
  | Else
  | Other (name : String)
deriving DecidableEq, Repr

/-- A token: kind (`Type` in the source, a reserved word here) and literal
text.  The source position a token also carries is never read by the code
embedded here. -/
structure Token where
  Typ : TokenType
  Literal : String
deriving DecidableEq, Repr

/-- A 64-bit floating point value, kept as its bit pattern. -/
structure Float64 where
  bits : Nat
deriving DecidableEq, Repr

/-! ## AST (package `ast`, outside the sources) -/

mutual
/-- Expression nodes, with the fields the parser and compiler sources set or
read.  `InfixExpression` is the node the compiler source calls `ast.Infix`. -/
inductive Expression where
  | null
  | Identifier (Tok : Token) (Value : String)
  | Number (Tok : Token) (Value : Float64)
  | Boolean (Tok : Token) (Value : Bool)
  | Nil (Tok : Token)
  | String (Tok : Token) (Value : String)
  | Tuple (Tok : Token) (Value : List Expression)
  | List (Tok : Token) (Elements : List Expression)
  | Array (Tok : Token) (Elements : List Expression)
  | Map (Tok : Token) (Pairs : List (Expression × Expression))
  | Block (Tok : Token) (Statements : List Statement)
  | PrefixExpression (Tok : Token) (Operator : String) (Right : Expression)
  | InfixExpression (Tok : Token) (Operator : String) (Left Right : Expression)
  | IndexExpression (Tok : Token) (Left Index : Expression)
  | FunctionCall (Tok : Token) (Function : Expression) (Arguments : List Expression)
  | IfExpression (Tok : Token) (Condition Consequence Alternative : Expression)
  | MatchExpression (Tok : Token) (Input : Expression)
      (Branches : List (Expression × Expression))
  | TypeExpression (Tok : Token) (Parameters : List Expression)
/-- Statement nodes, as dispatched on by `CompileStatement`.  `Other` stands
for every further statement kind of the language, with the name of its Go
type as `reflect.TypeOf` prints it. -/
inductive Statement where
  | null
  | ExpressionStatement (Expr : Expression)
  | Return (Value : Expression)
  | Next
  | Break
  | While (Condition Body : Expression)
  | For (Var Collection Body : Expression)
  | Export (Names : Expression)
  | Other (TypeName : String)
end

/-! ## Opcodes (`bytecode/instructions.go`, `const ( Nop byte = iota ... )`) -/

namespace bytecode

def Nop : Nat := 0
def LoadConst : Nat := 1
def LoadName : Nat := 2
def StoreName : Nat := 3
def DeclareName : Nat := 4
def LoadSubscript : Nat := 5
def StoreSubscript : Nat := 6
def UnaryInvert : Nat := 7
def UnaryNegate : Nat := 8
def BinaryAdd : Nat := 9
def BinarySub : Nat := 10
def BinaryMul : Nat := 11
def BinaryDiv : Nat := 12
def BinaryExp : Nat := 13
def BinaryFloorDiv : Nat := 14
def BinaryMod : Nat := 15
def BinaryLogicOr : Nat := 16
def BinaryLogicAnd : Nat := 17
def BinaryBitOr : Nat := 18
def BinaryBitAnd : Nat := 19
def BinaryEqual : Nat := 20
def BinaryNotEqual : Nat := 21
def BinaryLess : Nat := 22
def BinaryMore : Nat := 23
def BinaryLessEq : Nat := 24
def BinaryMoreEq : Nat := 25
def CallFunction : Nat := 26
def CallMethod : Nat := 27
def Return : Nat := 28
def OpenScope : Nat := 29
def CloseScope : Nat := 30
def Jump : Nat := 31
def JumpIf : Nat := 32
def JumpUnless : Nat := 33
def Break : Nat := 34
def Next : Nat := 35
def StartLoop : Nat := 36
def EndLoop : Nat := 37
def MakeList : Nat := 38
def MakeTuple : Nat := 39
def MakeMap : Nat := 40

end bytecode

open bytecode

/-! ## Compiler state and helpers -/

/-- A Go `error`: `none` is `nil`, `some msg` an error with that text. -/
abbrev Error := Option String

/-- A literal value of the constant pool. -/
inductive Constant where
  | num (v : Float64)
  | str (s : String)
  | bool (b : Bool)
  | nil
deriving DecidableEq, Repr

/-- The compiler: the byte sequence and its three pools. -/
structure Compiler where
  Bytes : List Nat
  Constants : List Constant
  Names : List String
  Jumps : List Nat
deriving DecidableEq, Repr

/-- Modelled from the spec: the bound on a pool or jump-table index, which
the missing `addName` / `addJump` check before they return an error.  An
index is emitted as a two-byte (16-bit) operand, so an index is refused as
soon as it does not fit. -/
def maxIndex : Nat := 65536

/-- Modelled from the spec: `runeToBytes`, missing from the sources.  Splits
a 16-bit index into its low and high byte, returned in that order (callers
write `low, high := runeToBytes(index)`). -/
def runeToBytes (r : Nat) : Nat × Nat :=
  (r % 256, (r / 256) % 256)

/-- Modelled from the spec: `Compiler.push`, missing from the sources.  The
byte sequence is append-only: the given bytes go to its end. -/
def Compiler.push (c : Compiler) (bs : List Nat) : Compiler :=
  { c with Bytes := c.Bytes ++ bs }

/-- Modelled from the spec: `Compiler.addJump`, missing from the sources.
Registers a jump-table entry holding offset `target` and returns its index; the
table is an ordered, growable sequence of absolute offsets. -/
def Compiler.addJump (c : Compiler) (target : Nat) : (Nat × Error) × Compiler :=
  if c.Jumps.length < maxIndex then
    ((c.Jumps.length, none), { c with Jumps := c.Jumps ++ [target] })
  else
    ((0, some "compiler: jump index out of range"), c)

/-- Modelled from the spec: `Compiler.addName`, missing from the sources.
Resolves or adds a name: a name already in the pool reuses its index, a new
one is appended. -/
def Compiler.addName (c : Compiler) (name : String) : (Nat × Error) × Compiler :=
  if name ∈ c.Names then
    ((c.Names.indexOf name, none), c)
  else if c.Names.length < maxIndex then
    ((c.Names.length, none), { c with Names := c.Names ++ [name] })
  else
    ((0, some "compiler: name index out of range"), c)

/-- Modelled from the spec: `Compiler.setJumpArg`, missing from the sources.
Resolves the forward jump whose opcode sits at offset `jump`: the target is
registered as a new jump-table entry and the two placeholder operand bytes
after the opcode are overwritten with that entry's index, high byte first. -/
def Compiler.setJumpArg (c : Compiler) (jump target : Nat) : Error × Compiler :=
  match c.addJump target with
  | ((_, some err), c) => (some err, c)
  | ((index, none), c) =>
    let (low, high) := runeToBytes index
    (none, { c with Bytes := (c.Bytes.set (jump + 1) high).set (jump + 2) low })

/-- Modelled from the spec: `Compiler.expandTuple`, missing from the sources.
Expands an infix comma chain into its elements, in source order; a node that
is not a comma infix is a single element. -/
def expandTuple : Expression → List Expression
  | .InfixExpression tok op l r =>
    if op = "," then expandTuple l ++ expandTuple r
    else [.InfixExpression tok op l r]
  | e => [e]

/-- What `statements.go` uses and neither it nor `instructions.go` defines:
the expression compiler of the sibling file, and four opcodes the
instruction table does not number. -/
structure Env where
  /-- The method `Compiler.CompileExpression`. -/
  CompileExpression : Expression → Compiler → Error × Compiler
  /-- The method `Compiler.encloseExpression`: the expression inside a new scope. -/
  encloseExpression : Expression → Compiler → Error × Compiler
  PushIter : Nat
  AdvIterFor : Nat
  PopIter : Nat
  Export : Nat

/-! ## `compiler/statements.go` -/

section statements

variable (K : Env)

def compileReturn (Value : Expression) (c : Compiler) : Error × Compiler :=
  match K.CompileExpression Value c with
  | (some err, c) => (some err, c)
  | (none, c) => (none, c.push [Return])

def compileNext (c : Compiler) : Error × Compiler :=
  (none, c.push [Next])

def compileBreak (c : Compiler) : Error × Compiler :=
  (none, c.push [Break])

def compileWhile (Condition Body : Expression) (c : Compiler) : Error × Compiler :=
  let c := c.push [StartLoop]
  -- Jump here for the next iteration
  let start := c.Bytes.length - 1
  match K.CompileExpression Condition c with
  | (some err, c) => (some err, c)
  | (none, c) =>
    -- An empty jump to the end of the loop
    let c := c.push [JumpUnless, 0, 0]
    let skipJump := c.Bytes.length - 3
    -- Compile the loop's body
    match K.encloseExpression Body c with
    | (some err, c) => (some err, c)
    | (none, c) =>
      -- After the body, jump back to the beginning
      match c.addJump start with
      | ((_, some err), c) => (some err, c)
      | ((index, none), c) =>
        let (low, high) := runeToBytes index
        let c := c.push [Jump, high, low]
        -- the result of setJumpArg is not looked at
        let c := (c.setJumpArg skipJump (c.Bytes.length + 1)).2
        let c := c.push [EndLoop]
        (none, c)

def compileFor (Var Collection Body : Expression) (c : Compiler) : Error × Compiler :=
  match K.CompileExpression Collection c with
  | (some err, c) => (some err, c)
  | (none, c) =>
    let c := c.push [K.PushIter, StartLoop]
    let start := c.Bytes.length
    match Var with
    | .Identifier _ Value =>
      match c.addName Value with
      | ((_, some err), c) => (some err, c)
      | ((index, none), c) =>
        let (low, high) := runeToBytes index
        let c := c.push [K.AdvIterFor, high, low]
        match K.CompileExpression Body c with
        | (some err, c) => (some err, c)
        | (none, c) =>
          match c.addJump start with
          | ((_, some err), c) => (some err, c)
          | ((index, none), c) =>
            let (low, high) := runeToBytes index
            let c := c.push [Jump, high, low]
            let c := c.push [EndLoop, K.PopIter]
            (none, c)
    | _ => (some "compiler: a for-loop counter must be an identifier", c)

/-- The first loop of `compileExport` over the expanded comma chain: collects
the identifier names, or stops at the first element that is not one. -/
def exportNames : List Expression → Option (List String)
  | [] => some []
  | .Identifier _ Value :: rest =>
    match exportNames rest with
    | some names => some (Value :: names)
    | none => none
  | _ :: _ => none

/-- The second loop of `compileExport`: one `Export` instruction per name. -/
def emitExports : List String → Compiler → Error × Compiler
  | [], c => (none, c)
  | name :: rest, c =>
    match c.addName name with
    | ((_, some err), c) => (some err, c)
    | ((index, none), c) =>
      let (low, high) := runeToBytes index
      emitExports rest (c.push [K.Export, high, low])

def compileExport (Names : Expression) (c : Compiler) : Error × Compiler :=
  match Names with
  | .InfixExpression tok op l r =>
    if op = "," then
      match exportNames (expandTuple (.InfixExpression tok op l r)) with
      | some names => emitExports K names c
      | none => (some "compiler: can only export identifiers, or a tuple thereof", c)
    else
      (some "compiler: can only export identifiers, or a tuple thereof", c)
  | .Identifier _ Value => emitExports K [Value] c
  | _ => (some "compiler: can only export identifiers, or a tuple thereof", c)

/-- CompileStatement takes an AST statement and generates some bytecode for it. -/
def CompileStatement (s : Statement) (c : Compiler) : Error × Compiler :=
  match s with
  | .ExpressionStatement Expr => K.CompileExpression Expr c
  | .Return Value => compileReturn K Value c
  | .Next => compileNext c
  | .Break => compileBreak c
  | .While Condition Body => compileWhile K Condition Body c
  | .For Var Collection Body => compileFor K Var Collection Body c
  | .Export Names => compileExport K Names c
  -- default: fmt.Errorf("... %s", reflect.TypeOf(s)); the type of a nil interface is nil
  | .null => (some "compiler: compilation not yet implemented for %!s(<nil>)", c)
  | .Other TypeName =>
    (some ("compiler: compilation not yet implemented for " ++ TypeName), c)

end statements

/-! ## Parser state and helpers (`parser` package, outside `expressions.go`) -/

/-- An entry of the parser's error list. -/
inductive ParseError where
  /-- No parser is registered for a token of this kind. -/
  | UnexpectedToken (t : TokenType)
  /-- The conversion error for a numeric literal. -/
  | InvalidNumber (lit : String)
  /-- A required token (`want`) was not the next one (`got`). -/
  | Expected (want got : TokenType)
deriving DecidableEq, Repr

/-- The parser: current and next token, the tokens the tokenizer has yet to
deliver, and the errors collected so far. -/
structure Parser where
  cur : Token
  peek : Token
  input : List Token
  Errors : List ParseError
deriving DecidableEq, Repr

/-- How a run of the parser can stop without a node: the recursion budget of
the embedding ran out, or the Go code dereferenced a nil node. -/
inductive Fault where
  | outOfFuel
  | nilDereference
deriving DecidableEq, Repr

/-- The prefix parsers of `expressions.go`, as values of the lookup table. -/
inductive PrefixParser where
  | parseID
  | parseNum
  | parseBool
  | parseNil
  | parseString
  | parseGroupedExpression
  | parseList
  | parseMap
  | parseSet
  | parseBlock
  | parsePrefix
  | parseIfExpression
  | parseMatchExpression
  | parseType
deriving DecidableEq, Repr

/-- The infix parsers of `expressions.go`, as values of the lookup table. -/
inductive InfixParser where
  | parseInfix
  | parseIndex
  | parseFunctionCall
deriving DecidableEq, Repr

/-- What `expressions.go` uses and does not define: the two lookup tables,
the precedence table with its named levels, the numeric conversion of the
standard library, and three parsers of sibling files, which are handed the
expression parser they call back into. -/
structure Grammar where
  /-- The table `p.prefixes`: token kind to prefix parser. -/
  prefixes : TokenType → Option PrefixParser
  /-- The table `p.infixes`: token kind to infix parser. -/
  infixes : TokenType → Option InfixParser
  /-- The precedence table: token kind to binding power. -/
  precedences : TokenType → Option Int
  /-- The level `lowest`. -/
  lowest : Int
  /-- The level the source calls `prefix`, used for the operand of a unary operator. -/
  prefixLevel : Int
  /-- The conversion `strconv.ParseFloat(lit, 64)`; `none` is a conversion error. -/
  parseFloat : String → Option Float64
  /-- The method `p.parseStatement`. -/
  parseStatement : (Int → Parser → Except Fault (Expression × Parser)) →
    Parser → Except Fault (Statement × Parser)
  /-- The method `p.parseExpressionPairs(end)`. -/
  parseExpressionPairs : (Int → Parser → Except Fault (Expression × Parser)) →
    TokenType → Parser → Except Fault (List (Expression × Expression) × Parser)
  /-- The method `p.parseParams(end)`. -/
  parseParams : (Int → Parser → Except Fault (Expression × Parser)) →
    TokenType → Parser → Except Fault (List Expression × Parser)

/-- Modelled from the spec: the token the tokenizer delivers once the stream
is used up, the explicit end-of-input token. -/
def eofToken : Token := ⟨.EOF, ""⟩

/-- Modelled from the spec: `Parser.next`, missing from the sources.  The
next token becomes the current one and one more token is taken from the
stream (lookahead of exactly one token). -/
def Parser.next (p : Parser) : Parser :=
  { p with cur := p.peek, peek := p.input.headD eofToken, input := p.input.tail }

/-- Modelled from the spec: `Parser.curIs`, missing from the sources. -/
def Parser.curIs (p : Parser) (t : TokenType) : Bool :=
  p.cur.Typ == t

/-- Modelled from the spec: `Parser.peekIs`, missing from the sources. -/
def Parser.peekIs (p : Parser) (t : TokenType) : Bool :=
  p.peek.Typ == t

/-- Modelled from the spec: `Parser.unexpectedTokenErr`, missing from the
sources.  Records an unexpected-token error in the error list. -/
def Parser.unexpectedTokenErr (p : Parser) (t : TokenType) : Parser :=
  { p with Errors := p.Errors ++ [.UnexpectedToken t] }

/-- Modelled from the spec: `Parser.expect`, missing from the sources.  A
mandatory token: if the next token is of kind `t` it is consumed (it becomes
the current token), otherwise an error is recorded and nothing is consumed. -/
def Parser.expect (p : Parser) (t : TokenType) : Bool × Parser :=
  if p.peekIs t then (true, p.next)
  else (false, { p with Errors := p.Errors ++ [.Expected t p.peek.Typ] })

/-- Modelled from the spec: `Parser.peekPrecedence`, missing from the
sources.  The infix binding power of the next token; a token without an
entry in the precedence table binds at `lowest`. -/
def Parser.peekPrecedence (G : Grammar) (p : Parser) : Int :=
  (G.precedences p.peek.Typ).getD G.lowest

/-- Modelled from the spec: the binding power of the current token, which
`parseInfix` reads (`precedence := p.cur()` in the source) to parse its
right operand at the operator's own precedence. -/
def Parser.curPrecedence (G : Grammar) (p : Parser) : Int :=
  (G.precedences p.cur.Typ).getD G.lowest

/-- The method `Token()` of a node: its originating token.  `none` for the
nil node, on which the call is a nil dereference. -/
def Expression.Token : Expression → Option Token
  | .null => none
  | .Identifier Tok _ => some Tok
  | .Number Tok _ => some Tok
  | .Boolean Tok _ => some Tok
  | .Nil Tok => some Tok
  | .String Tok _ => some Tok
  | .Tuple Tok _ => some Tok
  | .List Tok _ => some Tok
  | .Array Tok _ => some Tok
  | .Map Tok _ => some Tok
  | .Block Tok _ => some Tok
  | .PrefixExpression Tok _ _ => some Tok
  | .InfixExpression Tok _ _ _ => some Tok
  | .IndexExpression Tok _ _ => some Tok
  | .FunctionCall Tok _ _ => some Tok
  | .IfExpression Tok _ _ _ => some Tok
  | .MatchExpression Tok _ _ => some Tok
  | .TypeExpression Tok _ => some Tok

/-! ## `parser/expressions.go` -/

section expressions

variable (G : Grammar)

/-! ### Prefix parsers that read one token -/

def parseID (p : Parser) : Expression × Parser :=
  (.Identifier p.cur p.cur.Literal, p)

/-- The source sets `node.Value` and ends without a `return`; the node is
what the function is read as returning. -/
def parseNum (p : Parser) : Expression × Parser :=
  match G.parseFloat p.cur.Literal with
  | none => (.null, { p with Errors := p.Errors ++ [.InvalidNumber p.cur.Literal] })
  | some val => (.Number p.cur val, p)

def parseBool (p : Parser) : Expression × Parser :=
  (.Boolean p.cur (p.cur.Typ == .True), p)

def parseNil (p : Parser) : Expression × Parser :=
  (.Nil p.cur, p)

def parseString (p : Parser) : Expression × Parser :=
  (.String p.cur p.cur.Literal, p)

/-! ### The recursive parsers

Every function takes the recursion budget first; a loop of the source is a
function of its own (`infixLoop`, `listLoop`, `blockLoop`, `matchLoop`). -/

mutual

/-- parseExpression parses an expression starting at the current
token, and finishing just after the end of the node. -/
def parseExpression : Nat → Int → Parser → Except Fault (Expression × Parser)
  | 0, _, _ => .error .outOfFuel
  | f + 1, precedence, p =>
    match G.prefixes p.cur.Typ with
    | none => .ok (.null, p.unexpectedTokenErr p.cur.Typ)
    | some pre =>
      -- left := prefix()
      let r : Except Fault (Expression × Parser) :=
        match pre with
        | .parseID => .ok (parseID p)
        | .parseNum => .ok (parseNum G p)
        | .parseBool => .ok (parseBool p)
        | .parseNil => .ok (parseNil p)
        | .parseString => .ok (parseString p)
        | .parseGroupedExpression => parseGroupedExpression f p
        | .parseList => parseList f p
        | .parseMap => parseMap f p
        | .parseSet => parseSet f p
        | .parseBlock => parseBlock f p
        | .parsePrefix => parsePrefix f p
        | .parseIfExpression => parseIfExpression f p
        | .parseMatchExpression => parseMatchExpression f p
        | .parseType => parseType f p
      match r with
      | .error e => .error e
      | .ok (left, p) => infixLoop f precedence left p

/-- The `for` loop of `parseExpression`. -/
def infixLoop : Nat → Int → Expression → Parser → Except Fault (Expression × Parser)
  | 0, _, _, _ => .error .outOfFuel
  | f + 1, precedence, left, p =>
    if !p.peekIs .Semi && decide (precedence < p.peekPrecedence G) then
      match G.infixes p.peek.Typ with
      | none => .ok (left, p)
      | some inf =>
        let p := p.next
        -- left = infix(left)
        let r : Except Fault (Expression × Parser) :=
          match inf with
          | .parseInfix => parseInfix f left p
          | .parseIndex => parseIndex f left p
          | .parseFunctionCall => parseFunctionCall f left p
        match r with
        | .error e => .error e
        | .ok (left, p) => infixLoop f precedence left p
    else .ok (left, p)

/-- Modelled from the spec: `parseExpressionList(end)`, missing from the
sources: the general list parser.  It starts on the first token of the
first element (it requires at least one element), parses comma-separated
expressions and requires the token `end` after the last one. -/
def parseExpressionList : Nat → TokenType → Parser → Except Fault (List Expression × Parser)
  | 0, _, _ => .error .outOfFuel
  | f + 1, stop, p =>
    match parseExpression f G.lowest p with
    | .error e => .error e
    | .ok (e, p) => listLoop f stop [e] p

/-- The loop of `parseExpressionList` over the elements after the first. -/
def listLoop : Nat → TokenType → List Expression → Parser →
    Except Fault (List Expression × Parser)
  | 0, _, _, _ => .error .outOfFuel
  | f + 1, stop, exprs, p =>
    if p.peekIs .Comma then
      let p := p.next
      let p := p.next
      match parseExpression f G.lowest p with
      | .error e => .error e
      | .ok (e, p) => listLoop f stop (exprs ++ [e]) p
    else
      match p.expect stop with
      | (false, p) => .ok ([], p)
      | (true, p) => .ok (exprs, p)

def parseGroupedExpression : Nat → Parser → Except Fault (Expression × Parser)
  | 0, _ => .error .outOfFuel
  | f + 1, p =>
    let p := p.next
    if p.curIs .RightParen then
      .ok (.Tuple p.cur [], p)
    else
      match parseExpression f G.lowest p with
      | .error e => .error e
      | .ok (node, p) =>
        if p.peekIs .Comma then
          -- isTuple = true
          let p := p.next
          let p := p.next
          match node.Token with
          | none => .error .nilDereference
          | some tok =>
            match parseExpressionList f .RightParen p with
            | .error e => .error e
            | .ok (rest, p) => .ok (.Tuple tok ([node] ++ rest), p)
        else
          match p.expect .RightParen with
          | (false, p) => .ok (.null, p)
          | (true, p) => .ok (node, p)

def parseList : Nat → Parser → Except Fault (Expression × Parser)
  | 0, _ => .error .outOfFuel
  | f + 1, p =>
    let p := p.next
    if p.curIs .RightSquare then
      .ok (.List p.cur [], p)
    else
      -- `Tok: p.cur` is read once the call in the same literal has returned
      match parseExpressionList f .RightSquare p with
      | .error e => .error e
      | .ok (elements, p) => .ok (.Array p.cur elements, p)

def parseMap : Nat → Parser → Except Fault (Expression × Parser)
  | 0, _ => .error .outOfFuel
  | f + 1, p =>
    let p := p.next
    match p.expect .LeftBrace with
    | (false, p) => .ok (.null, p)
    | (true, p) =>
      if p.curIs .RightBrace then
        .ok (.Map p.cur [], p)
      else
        -- `Tok: p.cur` is read once the call in the same literal has returned
        match G.parseExpressionPairs (fun prec q => parseExpression f prec q) .RightBrace p with
        | .error e => .error e
        | .ok (pairs, p) => .ok (.Map p.cur pairs, p)

def parseSet : Nat → Parser → Except Fault (Expression × Parser)
  | 0, _ => .error .outOfFuel
  | f + 1, p =>
    let p := p.next
    match p.expect .LeftBrace with
    | (false, p) => .ok (.null, p)
    | (true, p) =>
      if p.curIs .RightBrace then
        .ok (.List p.cur [], p)
      else
        -- `Tok: p.cur` is read once the call in the same literal has returned
        match parseExpressionList f .RightBrace p with
        | .error e => .error e
        | .ok (elements, p) => .ok (.Array p.cur elements, p)

def parseBlock : Nat → Parser → Except Fault (Expression × Parser)
  | 0, _ => .error .outOfFuel
  | f + 1, p =>
    let tok := p.cur
    let p := p.next
    match blockLoop f [] p with
    | .error e => .error e
    | .ok (stmts, p) => .ok (.Block tok stmts, p)

/-- The `for` loop of `parseBlock`. -/
def blockLoop : Nat → List Statement → Parser → Except Fault (List Statement × Parser)
  | 0, _, _ => .error .outOfFuel
  | f + 1, stmts, p =>
    if !p.curIs .RightBrace && !p.curIs .EOF then
      match G.parseStatement (fun prec q => parseExpression f prec q) p with
      | .error e => .error e
      | .ok (stmt, p) =>
        let stmts :=
          match stmt with
          | .null => stmts
          | stmt => stmts ++ [stmt]
        let p := p.next
        blockLoop f stmts p
    else .ok (stmts, p)

def parsePrefix : Nat → Parser → Except Fault (Expression × Parser)
  | 0, _ => .error .outOfFuel
  | f + 1, p =>
    let tok := p.cur
    let op := p.cur.Literal
    let p := p.next
    match parseExpression f G.prefixLevel p with
    | .error e => .error e
    | .ok (right, p) => .ok (.PrefixExpression tok op right, p)

def parseIfExpression : Nat → Parser → Except Fault (Expression × Parser)
  | 0, _ => .error .outOfFuel
  | f + 1, p =>
    let tok := p.cur
    let p := p.next
    match parseExpression f G.lowest p with
    | .error e => .error e
    | .ok (condition, p) =>
      match p.expect .Then with
      | (false, p) => .ok (.null, p)
      | (true, p) =>
        match parseExpression f G.lowest p with
        | .error e => .error e
        | .ok (consequence, p) =>
          if p.peekIs .Else then
            let p := p.next
            match p.expect .LeftBrace with
            | (false, p) => .ok (.null, p)
            | (true, p) =>
              match parseExpression f G.lowest p with
              | .error e => .error e
              | .ok (alternative, p) =>
                .ok (.IfExpression tok condition consequence alternative, p)
          else .ok (.IfExpression tok condition consequence .null, p)

def parseMatchExpression : Nat → Parser → Except Fault (Expression × Parser)
  | 0, _ => .error .outOfFuel
  | f + 1, p =>
    let tok := p.cur
    let p := p.next
    match parseExpression f G.lowest p with
    | .error e => .error e
    | .ok (input, p) =>
      match matchLoop f [] p with
      | .error e => .error e
      | .ok (none, p) => .ok (.null, p)
      | .ok (some branches, p) => .ok (.MatchExpression tok input branches, p)

/-- The `for` loop of `parseMatchExpression`; `none` is its `return nil`. -/
def matchLoop : Nat → List (Expression × Expression) → Parser →
    Except Fault (Option (List (Expression × Expression)) × Parser)
  | 0, _, _ => .error .outOfFuel
  | f + 1, branches, p =>
    if p.peekIs .If then
      let p := p.next
      match parseExpression f G.lowest p with
      | .error e => .error e
      | .ok (condition, p) =>
        match p.expect .RightArrow with
        | (false, p) => .ok (none, p)
        | (true, p) =>
          match parseExpression f G.lowest p with
          | .error e => .error e
          | .ok (body, p) =>
            let p := p.next
            matchLoop f (branches ++ [(condition, body)]) p
    else .ok (some branches, p)

def parseType : Nat → Parser → Except Fault (Expression × Parser)
  | 0, _ => .error .outOfFuel
  | f + 1, p =>
    let tok := p.cur
    match p.expect .LeftParen with
    | (false, p) => .ok (.null, p)
    | (true, p) =>
      let p := p.next
      match G.parseParams (fun prec q => parseExpression f prec q) .RightParen p with
      | .error e => .error e
      | .ok (params, p) => .ok (.TypeExpression tok params, p)

def parseInfix : Nat → Expression → Parser → Except Fault (Expression × Parser)
  | 0, _, _ => .error .outOfFuel
  | f + 1, left, p =>
    let tok := p.cur
    let op := p.cur.Literal
    let precedence := p.curPrecedence G
    let p := p.next
    match parseExpression f precedence p with
    | .error e => .error e
    | .ok (right, p) => .ok (.InfixExpression tok op left right, p)

def parseIndex : Nat → Expression → Parser → Except Fault (Expression × Parser)
  | 0, _, _ => .error .outOfFuel
  | f + 1, left, p =>
    let tok := p.cur
    let p := p.next
    match parseExpression f G.lowest p with
    | .error e => .error e
    | .ok (index, p) =>
      match p.expect .RightSquare with
      | (false, p) => .ok (.null, p)
      | (true, p) => .ok (.IndexExpression tok left index, p)

def parseFunctionCall : Nat → Expression → Parser → Except Fault (Expression × Parser)
  | 0, _, _ => .error .outOfFuel
  | f + 1, left, p =>
    let tok := p.cur
    match parseExpressionList f .RightParen p with
    | .error e => .error e
    | .ok (arguments, p) => .ok (.FunctionCall tok left arguments, p)

end

end expressions

/-! ## Specification vocabulary

Reading the emitted code back, the shapes of an export target, operands and
well-formed expressions of the parser, and one concrete instance of each
parameter structure to evaluate the code on. -/

/-- The contract of the expression compiler the statement compiler relies
on: across a successful call the byte sequence only grows at its end. -/
def AppendOnly (f : Expression → Compiler → Error × Compiler) : Prop :=
  ∀ e c c', f e c = (none, c') → c.Bytes <+: c'.Bytes

/-- The index encoded by the two operand bytes that follow the opcode at
offset `off`, high byte first. -/
def operandAt (bytes : List Nat) (off : Nat) : Option Nat :=
  match bytes[off + 1]?, bytes[off + 2]? with
  | some high, some low => some (high * 256 + low)
  | _, _ => none

/-- The offset a jump instruction at offset `off` transfers to: its operand
is an index into the jump table, the entry is the target. -/
def jumpTarget (c : Compiler) (off : Nat) : Option Nat :=
  match operandAt c.Bytes off with
  | some index => c.Jumps[index]?
  | none => none

/-- A minimal expression compiler to instantiate `Env` with: an identifier
loads its name, any other node is refused. -/
def refCompileExpression : Expression → Compiler → Error × Compiler
  | .Identifier _ Value, c =>
    match c.addName Value with
    | ((_, some err), c) => (some err, c)
    | ((index, none), c) =>
      let (low, high) := runeToBytes index
      (none, c.push [LoadName, high, low])
  | _, c => (some "compiler: expression not supported", c)

/-- The expression between `OpenScope` and `CloseScope`. -/
def refEncloseExpression (e : Expression) (c : Compiler) : Error × Compiler :=
  match refCompileExpression e (c.push [OpenScope]) with
  | (some err, c) => (some err, c)
  | (none, c) => (none, c.push [CloseScope])

/-- An instance of `Env`; the four unnumbered opcodes continue the table. -/
def refEnv : Env where
  CompileExpression := refCompileExpression
  encloseExpression := refEncloseExpression
  PushIter := 41
  AdvIterFor := 42
  PopIter := 43
  Export := 44

/-- The compiler at the start of a unit: no bytes, empty pools. -/
def Compiler.empty : Compiler := ⟨[], [], [], []⟩

/-- An identifier node as the parser builds it. -/
def ident (name : String) : Expression :=
  .Identifier ⟨.Other "ID", name⟩ name

/-- The names of an export target that is a single identifier or a comma
chain of identifiers, in source order; `none` for every other shape. -/
def chainNames : Expression → Option (List String)
  | .Identifier _ Value => some [Value]
  | .InfixExpression _ op l r =>
    if op = "," then
      match chainNames l, chainNames r with
      | some a, some b => some (a ++ b)
      | _, _ => none
    else none
  | _ => none

/-- The `Export` instruction for name `n` against name pool `pool`: the
opcode, then the index of `n` in the pool, high byte first. -/
def exportInstr (K : Env) (pool : List String) (n : String) : List Nat :=
  [K.Export, (pool.indexOf n / 256) % 256, pool.indexOf n % 256]

/-- The text of the error `compileExport` returns for a malformed target. -/
def errMalformedExport : String :=
  "compiler: can only export identifiers, or a tuple thereof"

/-- The comma infix node the parser builds for `l , r`. -/
def comma (l r : Expression) : Expression :=
  .InfixExpression ⟨.Comma, ","⟩ "," l r

/-- The number literal node for the token text `lit` with value bits `v`. -/
def number (lit : String) (v : Nat) : Expression :=
  .Number ⟨.Other "Number", lit⟩ ⟨v⟩

/-- The node of `1 + 2`. -/
def onePlusTwo : Expression :=
  .InfixExpression ⟨.Other "+", "+"⟩ "+"
    (number "1" 0x3FF0000000000000) (number "2" 0x4000000000000000)

/-- The token of the number literal `lit`. -/
def numTok (lit : String) : Token := ⟨.Other "Number", lit⟩

/-- The token of the operator written `s`. -/
def opTok (s : String) : Token := ⟨.Other s, s⟩

def leftParen : Token := ⟨.LeftParen, "("⟩

def rightParen : Token := ⟨.RightParen, ")"⟩

def commaTok : Token := ⟨.Comma, ","⟩

/-- An instance of `Grammar` to evaluate the parser on: identifiers,
numbers, grouping, unary minus and `if` in prefix position; `+`, `*` and `^`
as binary operators of rising precedence; one expression statement per
statement. -/
def refGrammar : Grammar where
  prefixes := fun t =>
    match t with
    | .Other "ID" => some .parseID
    | .Other "Number" => some .parseNum
    | .True => some .parseBool
    | .LeftParen => some .parseGroupedExpression
    | .Other "-" => some .parsePrefix
    | .If => some .parseIfExpression
    | _ => none
  infixes := fun t =>
    match t with
    | .Other "+" => some .parseInfix
    | .Other "*" => some .parseInfix
    | .Other "^" => some .parseInfix
    | _ => none
  precedences := fun t =>
    match t with
    | .Other "+" => some 4
    | .Other "*" => some 5
    | .Other "^" => some 6
    | _ => none
  lowest := 1
  prefixLevel := 7
  parseFloat := fun s =>
    match s with
    | "1" => some ⟨0x3FF0000000000000⟩
    | "2" => some ⟨0x4000000000000000⟩
    | "3" => some ⟨0x4008000000000000⟩
    | _ => none
  parseStatement := fun pe p =>
    match pe 1 p with
    | .error e => .error e
    | .ok (.null, p) => .ok (.null, p)
    | .ok (e, p) => .ok (.ExpressionStatement e, p)
  parseExpressionPairs := fun _ _ p => .ok ([], p)
  parseParams := fun _ _ p => .ok ([], p)

/-- The node a one-token prefix parser builds for token `t`, if the table
sends the kind of `t` to such a parser (and, for a number, its literal
converts). -/
def leafNode (G : Grammar) (t : Token) : Option Expression :=
  match G.prefixes t.Typ with
  | some .parseID => some (.Identifier t t.Literal)
  | some .parseNum =>
    match G.parseFloat t.Literal with
    | some val => some (.Number t val)
    | none => none
  | some .parseBool => some (.Boolean t (t.Typ == .True))
  | some .parseNil => some (.Nil t)
  | some .parseString => some (.String t t.Literal)
  | _ => none

/-- A token at which the infix loop stops at every level: a statement
terminator, or a token whose binding power does not exceed `lowest`. -/
def Stops (G : Grammar) (t : Token) : Prop :=
  t.Typ = .Semi ∨ (G.precedences t.Typ).getD G.lowest ≤ G.lowest

/-- An operand with node `a` starts at the current token of `p`: run with a
recursion budget of at least `k`, the prefix parser registered for that
token returns `a` and leaves the parser in state `q`, so that
`parseExpression` goes on with its operator loop from `a` and `q`. -/
def Operand (G : Grammar) (k : Nat) (p : Parser) (a : Expression) (q : Parser) : Prop :=
  ∀ f, k ≤ f → ∀ prec, parseExpression G (f + 1) prec p = infixLoop G f prec a q

/-- With enough recursion budget, parsing at level `prec` from state `p`
returns node `n` and leaves the parser in state `q`. -/
def ParsesTo (G : Grammar) (prec : Int) (p : Parser) (n : Expression) (q : Parser) : Prop :=
  ∃ f0, ∀ f, f0 ≤ f → parseExpression G f prec p = .ok (n, q)

/-- A well-formed expression starts at the current token of `p`: parsing it
at level `lowest` yields the node `n`, which is not nil, records no error,
and ends in state `q`. -/
def WellFormed (G : Grammar) (p : Parser) (n : Expression) (q : Parser) : Prop :=
  ParsesTo G G.lowest p n q ∧ n ≠ .null ∧ q.Errors = p.Errors

/-- From state `q`, reached at the end of an element, the token stream goes
on with `, e` for each further well-formed element `e` (their nodes are
`ns`), and `r` is the state at the end of the last one, where no comma
follows. -/
inductive MoreElements (G : Grammar) : Parser → List Expression → Parser → Prop where
  | done (q : Parser) : q.peek.Typ ≠ .Comma → MoreElements G q [] q
  | step (q : Parser) (n : Expression) (q' : Parser) (ns : List Expression) (r : Parser) :
      q.peek.Typ = .Comma → WellFormed G q.next.next n q' → MoreElements G q' ns r →
      MoreElements G q (n :: ns) r

/-- The type test `node.(*ast.Identifier)`: is the node a plain identifier? -/
def Expression.isIdentifier : Expression → Bool
  | .Identifier _ _ => true
  | _ => false

/-- The test `stmt != nil` on a statement. -/
def Statement.isNull : Statement → Bool
  | .null => true
  | _ => false

/-- The token of the identifier `name`. -/
def idTok (name : String) : Token := ⟨.Other "ID", name⟩

def leftSquare : Token := ⟨.Other "[", "["⟩

def rightSquare : Token := ⟨.RightSquare, "]"⟩

def leftBrace : Token := ⟨.LeftBrace, "\x7b"⟩

def rightBrace : Token := ⟨.RightBrace, "\x7d"⟩

def mapTok : Token := ⟨.Other "map", "map"⟩

def ifTok : Token := ⟨.If, "if"⟩

def thenTok : Token := ⟨.Then, "then"⟩

/-- The grammar `refGrammar` with one more entry in the precedence table, for
a token `%` that has no infix parser. -/
def gapGrammar : Grammar :=
  { refGrammar with
    precedences := fun t =>
      match t with
      | .Other "%" => some 5
      | t => refGrammar.precedences t }

/-- With enough recursion budget, `parseStatement` called in state `p`
returns the statement `s` (possibly nil) and leaves the parser in state `q`. -/
def StatementAt (G : Grammar) (p : Parser) (s : Statement) (q : Parser) : Prop :=
  ∃ f0, ∀ f, f0 ≤ f →
    G.parseStatement (fun prec r => parseExpression G f prec r) p = .ok (s, q)

/-- The loop of `parseBlock` entered in state `p` makes the `parseStatement`
calls whose results are `rs`, in order, each followed by one `next`, and
leaves in state `r`, where the current token is the closing brace or the
end of input. -/
inductive BlockRun (G : Grammar) : Parser → List Statement → Parser → Prop where
  | stop (p : Parser) : (p.curIs .RightBrace || p.curIs .EOF) = true → BlockRun G p [] p
  | step (p : Parser) (s : Statement) (q : Parser) (rs : List Statement) (r : Parser) :
      (p.curIs .RightBrace || p.curIs .EOF) = false → StatementAt G p s q →
      BlockRun G q.next rs r → BlockRun G p (s :: rs) r

/-- The grammar `refGrammar` with binary `-` added at the precedence of
`+`. -/
def sumGrammar : Grammar :=
  { refGrammar with
    infixes := fun t =>
      match t with
      | .Other "-" => some .parseInfix
      | t => refGrammar.infixes t
    precedences := fun t =>
      match t with
      | .Other "-" => some 4
      | t => refGrammar.precedences t }

/-! # Theorems -/

/-! ## Helper lemmas: operand encoding and patching -/

theorem runeToBytes_decode (r : Nat) (h : r < maxIndex) :
    (runeToBytes r).2 * 256 + (runeToBytes r).1 = r := by
  unfold maxIndex at h
  simp only [runeToBytes]
  omega

theorem setJumpArg_length (c : Compiler) (j t : Nat) :
    (c.setJumpArg j t).2.Bytes.length = c.Bytes.length := by
  unfold Compiler.setJumpArg Compiler.addJump
  split_ifs <;> simp

theorem setJumpArg_getElem? (c : Compiler) (j t i : Nat) (h1 : i ≠ j + 1) (h2 : i ≠ j + 2) :
    (c.setJumpArg j t).2.Bytes[i]? = c.Bytes[i]? := by
  unfold Compiler.setJumpArg Compiler.addJump
  split_ifs
  · simp [List.getElem?_set, Ne.symm h1, Ne.symm h2]
  · simp

theorem setJumpArg_jumps (c : Compiler) (j t i : Nat) (h : i < c.Jumps.length) :
    (c.setJumpArg j t).2.Jumps[i]? = c.Jumps[i]? := by
  unfold Compiler.setJumpArg Compiler.addJump
  split_ifs
  · simp [List.getElem?_append_left h]
  · simp

/-! ## `compileWhile` -/

/-- The shape of a successful `compileWhile`, from which the claims about its
two jumps are read off.  `c2` is the state after the condition, `c4` the
state after the body. -/
theorem compileWhile_shape (K : Env) (hE : AppendOnly K.encloseExpression)
    (Condition Body : Expression) (c c2 c4 : Compiler)
    (hcond : K.CompileExpression Condition (c.push [StartLoop]) = (none, c2))
    (hbody : K.encloseExpression Body (c2.push [JumpUnless, 0, 0]) = (none, c4))
    (hroom : c4.Jumps.length < maxIndex) :
    ∃ c5 : Compiler,
      c5.Bytes = c4.Bytes ++ [Jump, (runeToBytes c4.Jumps.length).2,
        (runeToBytes c4.Jumps.length).1] ∧
      c5.Jumps = c4.Jumps ++ [c.Bytes.length] ∧
      c2.Bytes.length + 3 ≤ c4.Bytes.length ∧
      compileWhile K Condition Body c =
        (none, (c5.setJumpArg c2.Bytes.length (c4.Bytes.length + 3 + 1)).2.push [EndLoop]) := by
  obtain ⟨t2, h2⟩ := hE _ _ _ hbody
  have hlen : c2.Bytes.length + 3 ≤ c4.Bytes.length := by
    rw [← h2]; simp [Compiler.push]
  refine ⟨{ c4 with Jumps := c4.Jumps ++ [c.Bytes.length] }.push
    [Jump, (runeToBytes c4.Jumps.length).2, (runeToBytes c4.Jumps.length).1], ?_, ?_, hlen, ?_⟩
  · simp [Compiler.push]
  · simp [Compiler.push]
  · unfold compileWhile
    simp only [hcond, hbody]
    simp [Compiler.push, Compiler.addJump, hroom]

/-- C1.  For a while statement whose condition and body compile without
error (and a jump table with room for the loop-back entry), `compileWhile`
succeeds; the closing `Jump` is the instruction at the offset where the body
ended, directly followed by the final `EndLoop`; the jump-table entry its
operand refers to is the offset of the first byte this call appended; and
that byte is the `StartLoop` opcode. -/
theorem compileWhile_jump_lands_on_StartLoop (K : Env)
    (hC : AppendOnly K.CompileExpression) (hE : AppendOnly K.encloseExpression)
    (Condition Body : Expression) (c c2 c4 : Compiler)
    (hcond : K.CompileExpression Condition (c.push [StartLoop]) = (none, c2))
    (hbody : K.encloseExpression Body (c2.push [JumpUnless, 0, 0]) = (none, c4))
    (hroom : c4.Jumps.length < maxIndex) :
    ∃ c', compileWhile K Condition Body c = (none, c') ∧
      c'.Bytes.length = c4.Bytes.length + 4 ∧
      c'.Bytes[c4.Bytes.length]? = some Jump ∧
      c'.Bytes[c4.Bytes.length + 3]? = some EndLoop ∧
      jumpTarget c' c4.Bytes.length = some c.Bytes.length ∧
      c'.Bytes[c.Bytes.length]? = some StartLoop := by
  obtain ⟨c5, hb5, hj5, hlen, hrun⟩ :=
    compileWhile_shape K hE Condition Body c c2 c4 hcond hbody hroom
  obtain ⟨t1, h1⟩ := hC _ _ _ hcond
  obtain ⟨t2, h2⟩ := hE _ _ _ hbody
  have hl5 : c5.Bytes.length = c4.Bytes.length + 3 := by simp [hb5]
  have hc2 : c.Bytes.length + 1 ≤ c2.Bytes.length := by
    rw [← h1]; simp [Compiler.push]
  simp only [Compiler.push] at h1 h2
  have hstart : c4.Bytes[c.Bytes.length]? = some StartLoop := by
    rw [← h2, ← h1]
    simp only [List.append_assoc]
    rw [List.getElem?_append_right (le_refl _)]
    simp
  have hdec := runeToBytes_decode c4.Jumps.length hroom
  refine ⟨_, hrun, ?_, ?_, ?_, ?_, ?_⟩
  · simp [Compiler.push, setJumpArg_length, hl5]
  · have : c4.Bytes.length < (c5.setJumpArg c2.Bytes.length (c4.Bytes.length + 3 + 1)).2.Bytes.length := by
      rw [setJumpArg_length]; omega
    simp only [Compiler.push]
    rw [List.getElem?_append_left this, setJumpArg_getElem? _ _ _ _ (by omega) (by omega), hb5,
      List.getElem?_append_right (le_refl _)]
    simp
  · simp only [Compiler.push]
    rw [List.getElem?_append_right (by rw [setJumpArg_length]; omega), setJumpArg_length, hl5]
    simp
  · have hlt : ∀ k, k < 3 → c4.Bytes.length + k <
        (c5.setJumpArg c2.Bytes.length (c4.Bytes.length + 3 + 1)).2.Bytes.length := by
      intro k hk; rw [setJumpArg_length]; omega
    simp only [jumpTarget, operandAt, Compiler.push]
    rw [List.getElem?_append_left (hlt 1 (by omega)), List.getElem?_append_left (hlt 2 (by omega)),
      setJumpArg_getElem? _ _ _ _ (by omega) (by omega),
      setJumpArg_getElem? _ _ _ _ (by omega) (by omega), hb5]
    simp only [List.getElem?_append_right (Nat.le_add_right _ _), Nat.add_sub_cancel_left]
    simp only [List.getElem?_cons_succ, List.getElem?_cons_zero, hdec]
    rw [setJumpArg_jumps _ _ _ _ (by simp [hj5]), hj5]
    simp
  · have : c.Bytes.length < (c5.setJumpArg c2.Bytes.length (c4.Bytes.length + 3 + 1)).2.Bytes.length := by
      rw [setJumpArg_length]; omega
    simp only [Compiler.push]
    rw [List.getElem?_append_left this, setJumpArg_getElem? _ _ _ _ (by omega) (by omega), hb5,
      List.getElem?_append_left (by omega), hstart]

theorem refCompileExpression_appendOnly : AppendOnly refCompileExpression := by
  intro e c c' h
  cases e <;> simp only [refCompileExpression, Prod.mk.injEq, reduceCtorEq, false_and] at h
  rename_i tok v
  unfold Compiler.addName at h
  split_ifs at h <;> simp [Compiler.push] at h <;> (rw [← h]; simp)

theorem refEncloseExpression_appendOnly : AppendOnly refEncloseExpression := by
  intro e c c' h
  unfold refEncloseExpression at h
  split at h
  · simp at h
  · rename_i c1 h1
    have := refCompileExpression_appendOnly _ _ _ h1
    simp only [Prod.mk.injEq, true_and] at h
    subst h
    obtain ⟨t, ht⟩ := this
    simp only [Compiler.push] at ht ⊢
    rw [← ht]
    exact ⟨[bytecode.OpenScope] ++ t ++ [bytecode.CloseScope], by simp⟩

/-- Witness of C1: `while x { y }` compiled from the empty state. -/
theorem compileWhile_jump_lands_on_StartLoop_witness :
    ∃ c', compileWhile refEnv (ident "x") (ident "y") Compiler.empty = (none, c') ∧
      c'.Bytes.length = 12 + 4 ∧
      c'.Bytes[12]? = some bytecode.Jump ∧
      c'.Bytes[12 + 3]? = some bytecode.EndLoop ∧
      jumpTarget c' 12 = some 0 ∧
      c'.Bytes[0]? = some bytecode.StartLoop :=
  compileWhile_jump_lands_on_StartLoop refEnv refCompileExpression_appendOnly
    refEncloseExpression_appendOnly (ident "x") (ident "y") Compiler.empty
    ⟨[36, 2, 0, 0], [], ["x"], []⟩
    ⟨[36, 2, 0, 0, 33, 0, 0, 29, 2, 0, 1, 30], [], ["x", "y"], []⟩
    (by decide) (by decide) (by decide)

/-- C2 (as amended).  For a while statement whose condition and body compile
without error (and a jump table with room for the two entries of the loop),
`compileWhile` succeeds, the loop's `JumpUnless` is the instruction right
after the condition's code, and the exit target resolved for it is the
offset just past the final `EndLoop`, which directly follows the closing
`Jump`: one byte further than the end of that `Jump`, and the length of the
emitted code. -/
theorem compileWhile_exit_target (K : Env)
    (hE : AppendOnly K.encloseExpression)
    (Condition Body : Expression) (c c2 c4 : Compiler)
    (hcond : K.CompileExpression Condition (c.push [StartLoop]) = (none, c2))
    (hbody : K.encloseExpression Body (c2.push [JumpUnless, 0, 0]) = (none, c4))
    (hroom : c4.Jumps.length + 1 < maxIndex) :
    ∃ c', compileWhile K Condition Body c = (none, c') ∧
      c'.Bytes[c2.Bytes.length]? = some JumpUnless ∧
      c'.Bytes[c4.Bytes.length]? = some Jump ∧
      c'.Bytes[c4.Bytes.length + 3]? = some EndLoop ∧
      c'.Bytes.length = c4.Bytes.length + 3 + 1 ∧
      jumpTarget c' c2.Bytes.length = some (c4.Bytes.length + 3 + 1) := by
  obtain ⟨c5, hb5, hj5, hlen, hrun⟩ :=
    compileWhile_shape K hE Condition Body c c2 c4 hcond hbody (by omega)
  obtain ⟨t2, h2⟩ := hE _ _ _ hbody
  simp only [Compiler.push] at h2
  have hroom5 : c5.Jumps.length < maxIndex := by simp [hj5]; omega
  have hdec := runeToBytes_decode c5.Jumps.length hroom5
  have hset : (c5.setJumpArg c2.Bytes.length (c4.Bytes.length + 3 + 1)).2 =
      { c5 with
        Jumps := c5.Jumps ++ [c4.Bytes.length + 3 + 1]
        Bytes := (c5.Bytes.set (c2.Bytes.length + 1) (runeToBytes c5.Jumps.length).2).set
          (c2.Bytes.length + 2) (runeToBytes c5.Jumps.length).1 } := by
    simp [Compiler.setJumpArg, Compiler.addJump, hroom5]
  have hl5 : c5.Bytes.length = c4.Bytes.length + 3 := by simp [hb5]
  refine ⟨_, hrun, ?_, ?_, ?_, ?_, ?_⟩
  · rw [hset]
    simp only [Compiler.push]
    rw [List.getElem?_append_left (by simp; omega)]
    rw [List.getElem?_set_ne (by omega), List.getElem?_set_ne (by omega), hb5,
      List.getElem?_append_left (by omega), ← h2]
    simp only [List.append_assoc]
    rw [List.getElem?_append_right (le_refl _)]
    simp
  · rw [hset]
    simp only [Compiler.push]
    rw [List.getElem?_append_left (by simp; omega)]
    rw [List.getElem?_set_ne (by omega), List.getElem?_set_ne (by omega), hb5,
      List.getElem?_append_right (le_refl _)]
    simp
  · rw [hset]
    simp only [Compiler.push]
    rw [List.getElem?_append_right (by simp; omega)]
    simp [hl5]
  · simp [Compiler.push, setJumpArg_length, hl5]
  · rw [hset]
    simp only [jumpTarget, operandAt, Compiler.push]
    rw [List.getElem?_append_left (by simp; omega), List.getElem?_append_left (by simp; omega)]
    rw [List.getElem?_set_ne (by omega), List.getElem?_set_self (by omega)]
    rw [List.getElem?_set_self (by simp; omega)]
    simp only [hdec]
    simp

/-- Witness of C2 as amended: `while x { y }` compiled from the empty state. -/
theorem compileWhile_exit_target_witness :
    ∃ c', compileWhile refEnv (ident "x") (ident "y") Compiler.empty = (none, c') ∧
      c'.Bytes[4]? = some bytecode.JumpUnless ∧
      c'.Bytes[12]? = some bytecode.Jump ∧
      c'.Bytes[12 + 3]? = some bytecode.EndLoop ∧
      c'.Bytes.length = 12 + 3 + 1 ∧
      jumpTarget c' 4 = some (12 + 3 + 1) :=
  compileWhile_exit_target refEnv refEncloseExpression_appendOnly
    (ident "x") (ident "y") Compiler.empty
    ⟨[36, 2, 0, 0], [], ["x"], []⟩
    ⟨[36, 2, 0, 0, 33, 0, 0, 29, 2, 0, 1, 30], [], ["x", "y"], []⟩
    (by decide) (by decide) (by decide)

/-- C2 fails as stated: for `while x { y }` compiled from the empty state the
closing `Jump` occupies offsets 12 to 14, so the offset just past it is 15
(where `EndLoop` sits), but the target resolved for the `JumpUnless` at
offset 4 is 16. -/
theorem compileWhile_exit_target_counterexample :
    ∃ c', compileWhile refEnv (ident "x") (ident "y") Compiler.empty = (none, c') ∧
      c'.Bytes[4]? = some bytecode.JumpUnless ∧
      c'.Bytes[12]? = some bytecode.Jump ∧
      c'.Bytes[15]? = some bytecode.EndLoop ∧
      jumpTarget c' 4 = some 16 ∧
      jumpTarget c' 4 ≠ some (12 + 3) :=
  ⟨_, rfl, by decide⟩

/-! ## `compileExport` -/

theorem exportNames_append (a b : List Expression) :
    exportNames (a ++ b) =
      match exportNames a, exportNames b with
      | some x, some y => some (x ++ y)
      | _, _ => none := by
  induction a with
  | nil => cases h : exportNames b <;> simp [exportNames, h]
  | cons e rest ih =>
    cases e <;> simp only [List.cons_append, exportNames, List.append_eq]
    rw [ih]
    cases exportNames rest <;> cases exportNames b <;> simp

theorem exportNames_expandTuple : ∀ e : Expression,
    exportNames (expandTuple e) = chainNames e
  | .InfixExpression tok op l r => by
    by_cases h : op = ","
    · simp only [expandTuple, chainNames, h, if_true]
      rw [exportNames_append, exportNames_expandTuple l, exportNames_expandTuple r]
    · simp [expandTuple, chainNames, h, exportNames]
  | .Identifier _ _ => by simp [expandTuple, chainNames, exportNames]
  | .null => by simp [expandTuple, chainNames, exportNames]
  | .Number _ _ => by simp [expandTuple, chainNames, exportNames]
  | .Boolean _ _ => by simp [expandTuple, chainNames, exportNames]
  | .Nil _ => by simp [expandTuple, chainNames, exportNames]
  | .String _ _ => by simp [expandTuple, chainNames, exportNames]
  | .Tuple _ _ => by simp [expandTuple, chainNames, exportNames]
  | .List _ _ => by simp [expandTuple, chainNames, exportNames]
  | .Array _ _ => by simp [expandTuple, chainNames, exportNames]
  | .Map _ _ => by simp [expandTuple, chainNames, exportNames]
  | .Block _ _ => by simp [expandTuple, chainNames, exportNames]
  | .PrefixExpression _ _ _ => by simp [expandTuple, chainNames, exportNames]
  | .IndexExpression _ _ _ => by simp [expandTuple, chainNames, exportNames]
  | .FunctionCall _ _ _ => by simp [expandTuple, chainNames, exportNames]
  | .IfExpression _ _ _ _ => by simp [expandTuple, chainNames, exportNames]
  | .MatchExpression _ _ _ => by simp [expandTuple, chainNames, exportNames]
  | .TypeExpression _ _ => by simp [expandTuple, chainNames, exportNames]

theorem compileExport_eq (K : Env) (e : Expression) (c : Compiler) :
    compileExport K e c =
      match chainNames e with
      | some ns => emitExports K ns c
      | none => (some errMalformedExport, c) := by
  cases e <;> try (simp [compileExport, chainNames, errMalformedExport]; done)
  next tok op l r =>
    by_cases h : op = ","
    · simp only [compileExport, h, if_true, exportNames_expandTuple, errMalformedExport]
    · simp [compileExport, chainNames, h, errMalformedExport]

theorem chainNames_ne_nil : ∀ (e : Expression) (ns : List String),
    chainNames e = some ns → ns ≠ []
  | .Identifier _ _, ns, h => by
    simp only [chainNames, Option.some.injEq] at h
    subst h; simp
  | .InfixExpression _ op l r, ns, h => by
    by_cases hop : op = ","
    · simp only [chainNames, hop, if_true] at h
      cases hl : chainNames l with
      | none => simp [hl] at h
      | some a =>
        cases hr : chainNames r with
        | none => simp [hl, hr] at h
        | some b =>
          simp only [hl, hr, Option.some.injEq] at h
          subst h
          have := chainNames_ne_nil l a hl
          simp [this]
    · simp [chainNames, hop] at h
  | .null, _, h => by simp [chainNames] at h
  | .Number _ _, _, h => by simp [chainNames] at h
  | .Boolean _ _, _, h => by simp [chainNames] at h
  | .Nil _, _, h => by simp [chainNames] at h
  | .String _ _, _, h => by simp [chainNames] at h
  | .Tuple _ _, _, h => by simp [chainNames] at h
  | .List _ _, _, h => by simp [chainNames] at h
  | .Array _ _, _, h => by simp [chainNames] at h
  | .Map _ _, _, h => by simp [chainNames] at h
  | .Block _ _, _, h => by simp [chainNames] at h
  | .PrefixExpression _ _ _, _, h => by simp [chainNames] at h
  | .IndexExpression _ _ _, _, h => by simp [chainNames] at h
  | .FunctionCall _ _ _, _, h => by simp [chainNames] at h
  | .IfExpression _ _ _ _, _, h => by simp [chainNames] at h
  | .MatchExpression _ _ _, _, h => by simp [chainNames] at h
  | .TypeExpression _ _, _, h => by simp [chainNames] at h

/-- What `addName` does when the pool has room: the pool grows at most by
the name, the name is in it, and the index returned is its position. -/
theorem addName_spec (c : Compiler) (n : String) (hroom : c.Names.length < maxIndex) :
    ∃ c1, c.addName n = ((c1.Names.indexOf n, none), c1) ∧
      c1.Bytes = c.Bytes ∧ c1.Jumps = c.Jumps ∧ c1.Constants = c.Constants ∧
      c.Names <+: c1.Names ∧ n ∈ c1.Names ∧ c1.Names.length ≤ c.Names.length + 1 := by
  unfold Compiler.addName
  by_cases hmem : n ∈ c.Names
  · exact ⟨c, by simp [hmem], rfl, rfl, rfl, List.prefix_refl _, hmem, by omega⟩
  · refine ⟨{ c with Names := c.Names ++ [n] }, ?_, rfl, rfl, rfl, ?_, ?_, ?_⟩
    · simp [hmem, hroom, List.indexOf_append_of_not_mem hmem]
    · exact List.prefix_append _ _
    · simp
    · simp

/-- The emission loop of `compileExport` on a pool with room. -/
theorem emitExports_spec (K : Env) : ∀ (ns : List String) (c : Compiler),
    c.Names.length + ns.length ≤ maxIndex →
    ∃ c', emitExports K ns c = (none, c') ∧
      c'.Bytes = c.Bytes ++ ns.flatMap (exportInstr K c'.Names) ∧
      c.Names <+: c'.Names ∧ (∀ n ∈ ns, n ∈ c'.Names) ∧
      c'.Names.length ≤ c.Names.length + ns.length ∧
      c'.Jumps = c.Jumps ∧ c'.Constants = c.Constants := by
  intro ns
  induction ns with
  | nil =>
    intro c _
    exact ⟨c, rfl, by simp, List.prefix_refl _, by simp, by simp, rfl, rfl⟩
  | cons n rest ih =>
    intro c hroom
    simp only [List.length_cons] at hroom
    obtain ⟨c1, hadd, hb1, hj1, hk1, hpre1, hmem1, hlen1⟩ := addName_spec c n (by omega)
    obtain ⟨c', hrun, hb, hpre, hmem, hlen, hj, hk⟩ :=
      ih (c1.push [K.Export, (runeToBytes (c1.Names.indexOf n)).2,
        (runeToBytes (c1.Names.indexOf n)).1]) (by simp [Compiler.push]; omega)
    simp only [Compiler.push] at hb hpre hlen hj hk
    have hidx : c'.Names.indexOf n = c1.Names.indexOf n := by
      obtain ⟨t, ht⟩ := hpre
      rw [← ht, List.indexOf_append_of_mem hmem1]
    refine ⟨c', ?_, ?_, hpre1.trans hpre, ?_, ?_, by rw [hj, hj1], by rw [hk, hk1]⟩
    · simp only [emitExports, hadd]
      exact hrun
    · rw [hb, hb1]
      simp [List.flatMap_cons, exportInstr, hidx, runeToBytes]
    · intro m hm
      rcases List.mem_cons.mp hm with rfl | hm
      · exact hpre.subset hmem1
      · exact hmem m hm
    · simp only [List.length_cons]; omega

/-- C3.  For an export target that is a single identifier or a comma chain
of identifiers with names `ns` (in source order), and a name pool with room
for them, `compileExport` succeeds and appends exactly one `Export`
instruction per name, in that order: the opcode followed by the high byte
and then the low byte of the index the name has in the name pool.  Every
exported name is in the pool afterwards and the earlier pool entries keep
their index. -/
theorem compileExport_emits (K : Env) (e : Expression) (ns : List String) (c : Compiler)
    (hchain : chainNames e = some ns)
    (hroom : c.Names.length + ns.length ≤ maxIndex) :
    ∃ c', compileExport K e c = (none, c') ∧
      ns ≠ [] ∧
      c'.Bytes = c.Bytes ++ ns.flatMap (exportInstr K c'.Names) ∧
      (∀ n ∈ ns, n ∈ c'.Names) ∧
      c.Names <+: c'.Names := by
  obtain ⟨c', hrun, hb, hpre, hmem, _, _, _⟩ := emitExports_spec K ns c hroom
  refine ⟨c', ?_, chainNames_ne_nil e ns hchain, hb, hmem, hpre⟩
  rw [compileExport_eq, hchain]
  exact hrun

/-- Witness of C3: `export a, b` from a pool that already holds `b`; the two
instructions carry index 1 (`a`, appended) and index 0 (`b`, reused). -/
theorem compileExport_emits_witness :
    ∃ c', compileExport refEnv (comma (ident "a") (ident "b"))
        ⟨[], [], ["b"], []⟩ = (none, c') ∧
      ["a", "b"] ≠ [] ∧
      c'.Bytes = [] ++ ["a", "b"].flatMap (exportInstr refEnv c'.Names) ∧
      (∀ n ∈ ["a", "b"], n ∈ c'.Names) ∧
      ["b"] <+: c'.Names :=
  compileExport_emits refEnv (comma (ident "a") (ident "b")) ["a", "b"]
    ⟨[], [], ["b"], []⟩ (by decide) (by decide)

/-- C4.  When the name pool has room for the names of the target (so that
adding a name does not fail), `compileExport` returns the error
"compiler: can only export identifiers, or a tuple thereof" if and only if
the target is neither a single identifier nor a comma chain whose expanded
elements are all identifiers. -/
theorem compileExport_malformed_iff (K : Env) (e : Expression) (c : Compiler)
    (hroom : ∀ ns, chainNames e = some ns → c.Names.length + ns.length ≤ maxIndex) :
    (compileExport K e c).1 = some "compiler: can only export identifiers, or a tuple thereof"
      ↔ chainNames e = none := by
  rw [compileExport_eq]
  cases h : chainNames e with
  | none => simp [errMalformedExport]
  | some ns =>
    obtain ⟨c', hrun, _⟩ := emitExports_spec K ns c (hroom ns h)
    simp [hrun]

/-- Witness of C4: `export 1 + 2` fails with the malformed-export error,
and `export a, b` from the empty state does not. -/
theorem compileExport_malformed_iff_witness :
    (compileExport refEnv onePlusTwo Compiler.empty).1 =
        some "compiler: can only export identifiers, or a tuple thereof" ∧
      (compileExport refEnv (comma (ident "a") (ident "b")) Compiler.empty).1 ≠
        some "compiler: can only export identifiers, or a tuple thereof" :=
  ⟨(compileExport_malformed_iff refEnv onePlusTwo Compiler.empty
      (by intro ns h
          have hn : chainNames onePlusTwo = none := by decide
          rw [hn] at h
          cases h)).mpr (by decide),
   fun h => absurd
    ((compileExport_malformed_iff refEnv (comma (ident "a") (ident "b")) Compiler.empty
      (by intro ns h
          have hn : chainNames (comma (ident "a") (ident "b")) = some ["a", "b"] := by decide
          rw [hn] at h
          cases h
          decide)).mp h) (by decide)⟩

/-! ## `compileFor` -/

/-- The shape of a successful `compileFor`.  `c1` is the state after the
collection, `c3` the state after the body; `v` is the loop variable. -/
theorem compileFor_shape (K : Env) (hC : AppendOnly K.CompileExpression)
    (tok : Token) (v : String) (Collection Body : Expression) (c c1 c3 : Compiler)
    (hcoll : K.CompileExpression Collection c = (none, c1))
    (hname : ((c1.push [K.PushIter, StartLoop]).addName v).1.2 = none)
    (hbody : K.CompileExpression Body
      (((c1.push [K.PushIter, StartLoop]).addName v).2.push
        [K.AdvIterFor, (runeToBytes ((c1.push [K.PushIter, StartLoop]).addName v).1.1).2,
          (runeToBytes ((c1.push [K.PushIter, StartLoop]).addName v).1.1).1]) = (none, c3))
    (hroom : c3.Jumps.length < maxIndex) :
    ∃ (c' : Compiler) (t : List Nat),
      compileFor K (.Identifier tok v) Collection Body c = (none, c') ∧
      c3.Bytes = c1.Bytes ++ [K.PushIter, StartLoop, K.AdvIterFor,
        (runeToBytes ((c1.push [K.PushIter, StartLoop]).addName v).1.1).2,
        (runeToBytes ((c1.push [K.PushIter, StartLoop]).addName v).1.1).1] ++ t ∧
      c'.Bytes = c3.Bytes ++ [Jump, (runeToBytes c3.Jumps.length).2,
        (runeToBytes c3.Jumps.length).1, EndLoop, K.PopIter] ∧
      c'.Jumps = c3.Jumps ++ [c1.Bytes.length + 2] := by
  obtain ⟨t, ht⟩ := hC _ _ _ hbody
  have hab : ((c1.push [K.PushIter, StartLoop]).addName v).2.Bytes =
      c1.Bytes ++ [K.PushIter, StartLoop] := by
    unfold Compiler.addName
    split_ifs <;> simp [Compiler.push]
  refine ⟨{ c3 with
      Bytes := c3.Bytes ++ [Jump, (runeToBytes c3.Jumps.length).2,
        (runeToBytes c3.Jumps.length).1, EndLoop, K.PopIter]
      Jumps := c3.Jumps ++ [c1.Bytes.length + 2] }, t, ?_, ?_, rfl, rfl⟩
  · unfold compileFor
    simp only [hcoll]
    generalize hadd : (c1.push [K.PushIter, StartLoop]).addName v = r at hname hbody
    obtain ⟨⟨idx, err⟩, c2⟩ := r
    simp only at hname hbody
    subst hname
    simp only [hbody]
    simp [Compiler.push, Compiler.addJump, hroom]
  · have hpush : ∀ (d : Compiler) (bs : List Nat), (d.push bs).Bytes = d.Bytes ++ bs :=
      fun _ _ => rfl
    rw [← ht, hpush, hab]
    simp

/-- C9.  For a for statement whose loop variable is an identifier and whose
collection and body compile without error (the name and the jump-table
entry finding room), `compileFor` succeeds; the iterator-push opcode and
`StartLoop` are the two bytes directly after the collection's code, followed
by the advance-iterator opcode; and the jump-table entry the closing `Jump`
refers to is the offset immediately after that `StartLoop`, which is the
offset of the advance-iterator opcode. -/
theorem compileFor_jump_lands_after_StartLoop (K : Env)
    (hC : AppendOnly K.CompileExpression)
    (tok : Token) (v : String) (Collection Body : Expression) (c c1 c3 : Compiler)
    (hcoll : K.CompileExpression Collection c = (none, c1))
    (hname : ((c1.push [K.PushIter, StartLoop]).addName v).1.2 = none)
    (hbody : K.CompileExpression Body
      (((c1.push [K.PushIter, StartLoop]).addName v).2.push
        [K.AdvIterFor, (runeToBytes ((c1.push [K.PushIter, StartLoop]).addName v).1.1).2,
          (runeToBytes ((c1.push [K.PushIter, StartLoop]).addName v).1.1).1]) = (none, c3))
    (hroom : c3.Jumps.length < maxIndex) :
    ∃ c', compileFor K (.Identifier tok v) Collection Body c = (none, c') ∧
      c1.Bytes <+: c'.Bytes ∧
      c'.Bytes[c1.Bytes.length]? = some K.PushIter ∧
      c'.Bytes[c1.Bytes.length + 1]? = some StartLoop ∧
      c'.Bytes[c1.Bytes.length + 1 + 1]? = some K.AdvIterFor ∧
      c'.Bytes[c3.Bytes.length]? = some Jump ∧
      c'.Bytes.length = c3.Bytes.length + 5 ∧
      jumpTarget c' c3.Bytes.length = some (c1.Bytes.length + 1 + 1) := by
  obtain ⟨c', t, hrun, hb3, hb, hj⟩ :=
    compileFor_shape K hC tok v Collection Body c c1 c3 hcoll hname hbody hroom
  have hdec := runeToBytes_decode c3.Jumps.length hroom
  have hl3 : c1.Bytes.length + 5 ≤ c3.Bytes.length := by rw [hb3]; simp
  have hpre : ∀ k x, k < 5 →
      (c1.Bytes ++ [K.PushIter, StartLoop, K.AdvIterFor,
        (runeToBytes ((c1.push [K.PushIter, StartLoop]).addName v).1.1).2,
        (runeToBytes ((c1.push [K.PushIter, StartLoop]).addName v).1.1).1])[c1.Bytes.length + k]?
        = some x → c'.Bytes[c1.Bytes.length + k]? = some x := by
    intro k x hk hx
    rw [hb, List.getElem?_append_left (by omega), hb3,
      List.getElem?_append_left (by simp; omega)]
    exact hx
  refine ⟨c', hrun, ?_, ?_, ?_, ?_, ?_, ?_, ?_⟩
  · rw [hb, hb3]
    simp only [List.append_assoc]
    exact List.prefix_append _ _
  · exact hpre 0 _ (by omega) (by rw [List.getElem?_append_right (by omega)]; simp)
  · exact hpre 1 _ (by omega) (by rw [List.getElem?_append_right (by omega)]; simp)
  · exact hpre 2 _ (by omega) (by rw [List.getElem?_append_right (by omega)]; simp)
  · rw [hb, List.getElem?_append_right (le_refl _)]; simp
  · rw [hb]; simp
  · simp only [jumpTarget, operandAt, hb]
    rw [List.getElem?_append_right (by omega), List.getElem?_append_right (by omega)]
    simp only [Nat.add_sub_cancel_left, List.getElem?_cons_succ, List.getElem?_cons_zero, hdec]
    rw [hj]
    simp

/-- Witness of C9: `for x in xs { y }` compiled from the empty state. -/
theorem compileFor_jump_lands_after_StartLoop_witness :
    ∃ c', compileFor refEnv (.Identifier ⟨.Other "ID", "x"⟩ "x") (ident "xs") (ident "y")
        Compiler.empty = (none, c') ∧
      [2, 0, 0] <+: c'.Bytes ∧
      c'.Bytes[3]? = some refEnv.PushIter ∧
      c'.Bytes[3 + 1]? = some bytecode.StartLoop ∧
      c'.Bytes[3 + 1 + 1]? = some refEnv.AdvIterFor ∧
      c'.Bytes[11]? = some bytecode.Jump ∧
      c'.Bytes.length = 11 + 5 ∧
      jumpTarget c' 11 = some (3 + 1 + 1) :=
  compileFor_jump_lands_after_StartLoop refEnv refCompileExpression_appendOnly
    ⟨.Other "ID", "x"⟩ "x" (ident "xs") (ident "y") Compiler.empty
    ⟨[2, 0, 0], [], ["xs"], []⟩
    ⟨[2, 0, 0, 41, 36, 42, 0, 1, 2, 0, 2], [], ["xs", "x", "y"], []⟩
    (by decide) (by decide) (by decide) (by decide)

/-- C10 (as amended).  A successful `compileFor` registers exactly one
jump-table entry of its own, after the entries present when the body
finished: the loop-back target, the offset of the advance-iterator opcode.
That offset lies strictly before the closing `Jump`, hence before the
`EndLoop` emitted after it, and the two operand bytes of the
advance-iterator instruction are the high and low byte of the loop
variable's name index.  No exit target is recorded for it. -/
theorem compileFor_registers_only_loop_back (K : Env)
    (hC : AppendOnly K.CompileExpression)
    (tok : Token) (v : String) (Collection Body : Expression) (c c1 c3 : Compiler)
    (hcoll : K.CompileExpression Collection c = (none, c1))
    (hname : ((c1.push [K.PushIter, StartLoop]).addName v).1.2 = none)
    (hbody : K.CompileExpression Body
      (((c1.push [K.PushIter, StartLoop]).addName v).2.push
        [K.AdvIterFor, (runeToBytes ((c1.push [K.PushIter, StartLoop]).addName v).1.1).2,
          (runeToBytes ((c1.push [K.PushIter, StartLoop]).addName v).1.1).1]) = (none, c3))
    (hroom : c3.Jumps.length < maxIndex) :
    ∃ c', compileFor K (.Identifier tok v) Collection Body c = (none, c') ∧
      c'.Jumps = c3.Jumps ++ [c1.Bytes.length + 2] ∧
      c'.Bytes[c1.Bytes.length + 2]? = some K.AdvIterFor ∧
      c'.Bytes[c1.Bytes.length + 3]? =
        some (runeToBytes ((c1.push [K.PushIter, StartLoop]).addName v).1.1).2 ∧
      c'.Bytes[c1.Bytes.length + 4]? =
        some (runeToBytes ((c1.push [K.PushIter, StartLoop]).addName v).1.1).1 ∧
      c'.Bytes[c3.Bytes.length]? = some Jump ∧
      c'.Bytes[c3.Bytes.length + 3]? = some EndLoop ∧
      c1.Bytes.length + 2 < c3.Bytes.length := by
  obtain ⟨c', t, hrun, hb3, hb, hj⟩ :=
    compileFor_shape K hC tok v Collection Body c c1 c3 hcoll hname hbody hroom
  have hl3 : c1.Bytes.length + 5 ≤ c3.Bytes.length := by rw [hb3]; simp
  have hpre : ∀ k x, k < 5 →
      (c1.Bytes ++ [K.PushIter, StartLoop, K.AdvIterFor,
        (runeToBytes ((c1.push [K.PushIter, StartLoop]).addName v).1.1).2,
        (runeToBytes ((c1.push [K.PushIter, StartLoop]).addName v).1.1).1])[c1.Bytes.length + k]?
        = some x → c'.Bytes[c1.Bytes.length + k]? = some x := by
    intro k x hk hx
    rw [hb, List.getElem?_append_left (by omega), hb3,
      List.getElem?_append_left (by simp; omega)]
    exact hx
  refine ⟨c', hrun, hj, ?_, ?_, ?_, ?_, ?_, by omega⟩
  · exact hpre 2 _ (by omega) (by rw [List.getElem?_append_right (by omega)]; simp)
  · exact hpre 3 _ (by omega) (by rw [List.getElem?_append_right (by omega)]; simp)
  · exact hpre 4 _ (by omega) (by rw [List.getElem?_append_right (by omega)]; simp)
  · rw [hb, List.getElem?_append_right (le_refl _)]; simp
  · rw [hb, List.getElem?_append_right (by omega)]; simp

/-- Witness of C10 as amended: `for x in xs { y }` from the empty state. -/
theorem compileFor_registers_only_loop_back_witness :
    ∃ c', compileFor refEnv (.Identifier ⟨.Other "ID", "x"⟩ "x") (ident "xs") (ident "y")
        Compiler.empty = (none, c') ∧
      c'.Jumps = [] ++ [3 + 2] ∧
      c'.Bytes[3 + 2]? = some refEnv.AdvIterFor ∧
      c'.Bytes[3 + 3]? = some 0 ∧
      c'.Bytes[3 + 4]? = some 1 ∧
      c'.Bytes[11]? = some bytecode.Jump ∧
      c'.Bytes[11 + 3]? = some bytecode.EndLoop ∧
      3 + 2 < 11 :=
  compileFor_registers_only_loop_back refEnv refCompileExpression_appendOnly
    ⟨.Other "ID", "x"⟩ "x" (ident "xs") (ident "y") Compiler.empty
    ⟨[2, 0, 0], [], ["xs"], []⟩
    ⟨[2, 0, 0, 41, 36, 42, 0, 1, 2, 0, 2], [], ["xs", "x", "y"], []⟩
    (by decide) (by decide) (by decide) (by decide)

/-- C10 fails as stated: `for x in xs { y }` compiles from the empty state
with `EndLoop` at offset 14 (the code being 16 bytes long), and the jump
table afterwards is `[5]`: it holds no entry for the loop's end, neither the
offset of `EndLoop` nor an offset after it. -/
theorem compileFor_exit_target_counterexample :
    ∃ c', compileFor refEnv (.Identifier ⟨.Other "ID", "x"⟩ "x") (ident "xs") (ident "y")
        Compiler.empty = (none, c') ∧
      c'.Bytes[14]? = some bytecode.EndLoop ∧
      c'.Bytes.length = 16 ∧
      c'.Jumps = [5] ∧
      ¬ ∃ target ∈ c'.Jumps, 14 ≤ target :=
  ⟨_, rfl, by decide⟩

/-! ## `parseExpression` and `parseInfix` -/

theorem parseExpression_leaf (G : Grammar) (f : Nat) (prec : Int) (p : Parser) (a : Expression)
    (h : leafNode G p.cur = some a) :
    parseExpression G (f + 1) prec p = infixLoop G f prec a p := by
  unfold leafNode at h
  rw [parseExpression]
  cases hp : G.prefixes p.cur.Typ with
  | none => simp [hp] at h
  | some pre =>
    cases pre <;> simp only [hp, reduceCtorEq] at h
    · cases h; rfl
    · cases hf : G.parseFloat p.cur.Literal with
      | none => simp [hf] at h
      | some val =>
        simp only [hf, Option.some.injEq] at h
        subst h
        simp [parseNum, hf]
    · cases h; rfl
    · cases h; rfl
    · cases h; rfl

theorem infixLoop_stop (G : Grammar) (f : Nat) (prec : Int) (left : Expression) (p : Parser)
    (h : p.peek.Typ = .Semi ∨ p.peekPrecedence G ≤ prec) :
    infixLoop G (f + 1) prec left p = .ok (left, p) := by
  rw [infixLoop]
  rcases h with h | h
  · simp [Parser.peekIs, h]
  · simp [not_lt.mpr h]

theorem infixLoop_parseInfix (G : Grammar) (f : Nat) (prec : Int) (left : Expression)
    (p : Parser) (h1 : p.peek.Typ ≠ .Semi) (h2 : prec < p.peekPrecedence G)
    (h3 : G.infixes p.peek.Typ = some .parseInfix) :
    infixLoop G (f + 1) prec left p =
      match parseInfix G f left p.next with
      | .error e => .error e
      | .ok (l, q) => infixLoop G f prec l q := by
  rw [infixLoop]
  simp [Parser.peekIs, h1, h2, h3]

theorem parseInfix_succ (G : Grammar) (f : Nat) (left : Expression) (p : Parser) :
    parseInfix G (f + 1) left p =
      match parseExpression G f (p.curPrecedence G) p.next with
      | .error e => .error e
      | .ok (right, q) => .ok (.InfixExpression p.cur p.cur.Literal left right, q) := by
  rw [parseInfix]

theorem parseExpression_last_leaf (G : Grammar) (t : Token) (rest : List Token)
    (errs : List ParseError) (x : Expression) (prec : Int)
    (hx : leafNode G t = some x) (hprec : G.lowest ≤ prec)
    (hend : Stops G (rest.headD eofToken)) (j : Nat) :
    parseExpression G (j + 2) prec ⟨t, rest.headD eofToken, rest.tail, errs⟩ =
      .ok (x, ⟨t, rest.headD eofToken, rest.tail, errs⟩) := by
  rw [parseExpression_leaf G _ _ _ x hx, infixLoop_stop]
  rcases hend with h | h
  · exact Or.inl h
  · exact Or.inr (le_trans h hprec)

/-- A token read by a one-token prefix parser is an operand. -/
theorem operand_leaf (G : Grammar) (p : Parser) (a : Expression)
    (h : leafNode G p.cur = some a) : Operand G 0 p a p :=
  fun f _ prec => parseExpression_leaf G f prec p a h

theorem stops_le (G : Grammar) (q : Parser) (prec : Int) (hend : Stops G q.peek)
    (hprec : G.lowest ≤ prec) : q.peek.Typ = .Semi ∨ q.peekPrecedence G ≤ prec := by
  rcases hend with h | h
  · exact Or.inl h
  · exact Or.inr (le_trans h hprec)

/-- An operator parsed by `parseInfix` whose right operand `c` is followed
by a token at which the operator loop stops. -/
theorem parseInfix_last_operand (G : Grammar) (kc : Nat) (q qc : Parser) (x c : Expression)
    (π : Int) (hc : Operand G kc q.next.next c qc)
    (hp : G.precedences q.peek.Typ = some π) (hlow : G.lowest ≤ π)
    (hend : Stops G qc.peek) (f : Nat) (hf : kc + 3 ≤ f) :
    parseInfix G f x q.next =
      .ok (.InfixExpression q.peek q.peek.Literal x c, qc) := by
  obtain ⟨j, rfl⟩ : ∃ j, f = j + 3 := ⟨f - 3, by omega⟩
  rw [parseInfix_succ]
  have hcur : q.next.curPrecedence G = π := by
    simp [Parser.curPrecedence, Parser.next, hp]
  have hcurTok : q.next.cur = q.peek := rfl
  rw [hcur, hcurTok, hc (j + 1) (by omega), infixLoop_stop G _ _ _ _ (stops_le G qc π hend hlow)]

/-- C5.  Let `a`, `b`, `c` be operands and `op1`, `op2` binary operators
(tokens the infix table sends to `parseInfix`, `op1` binding above `lowest`)
such that the precedence table gives `op2` a strictly higher precedence than
`op1`.  On the tokens `a op1 b op2 c`, followed by a token at which the
operator loop stops, `parseExpression(lowest)` returns the infix node
`op1(a, op2(b, c))` for every large enough recursion budget, the parser
ending where the operand `c` ends.  (`qa`, `qb`, `qc` are the parser states
at the end of the three operands; `op1` is the token after `a`, `op2` the
token after `b`.) -/
theorem parseExpression_higher_precedence_binds_tighter (G : Grammar)
    (ka kb kc : Nat) (p qa qb qc : Parser) (a b c : Expression) (π1 π2 : Int)
    (ha : Operand G ka p a qa) (hb : Operand G kb qa.next.next b qb)
    (hc : Operand G kc qb.next.next c qc)
    (hi1 : G.infixes qa.peek.Typ = some .parseInfix)
    (hi2 : G.infixes qb.peek.Typ = some .parseInfix)
    (hs1 : qa.peek.Typ ≠ .Semi) (hs2 : qb.peek.Typ ≠ .Semi)
    (hp1 : G.precedences qa.peek.Typ = some π1) (hp2 : G.precedences qb.peek.Typ = some π2)
    (hlow : G.lowest < π1) (hlt : π1 < π2)
    (hend : Stops G qc.peek) (f : Nat) (hf : ka + kb + kc + 8 ≤ f) :
    parseExpression G f G.lowest p =
      .ok (.InfixExpression qa.peek qa.peek.Literal a
        (.InfixExpression qb.peek qb.peek.Literal b c), qc) := by
  obtain ⟨j, rfl⟩ : ∃ j, f = j + 8 := ⟨f - 8, by omega⟩
  have h2 : parseExpression G (j + 5) π1 qa.next.next =
      .ok (.InfixExpression qb.peek qb.peek.Literal b c, qc) := by
    rw [hb (j + 4) (by omega),
      infixLoop_parseInfix G _ _ _ _ hs2 (by simp [Parser.peekPrecedence, hp2, hlt]) hi2,
      parseInfix_last_operand G kc qb qc b c π2 hc hp2 (by omega) hend (j + 3) (by omega)]
    simp only
    rw [infixLoop_stop G _ _ _ _ (stops_le G qc π1 hend (by omega))]
  have h1 : parseInfix G (j + 6) a qa.next =
      .ok (.InfixExpression qa.peek qa.peek.Literal a
        (.InfixExpression qb.peek qb.peek.Literal b c), qc) := by
    rw [parseInfix_succ]
    have hcur : qa.next.curPrecedence G = π1 := by
      simp [Parser.curPrecedence, Parser.next, hp1]
    have hcurTok : qa.next.cur = qa.peek := rfl
    rw [hcur, hcurTok, h2]
  rw [ha (j + 7) (by omega),
    infixLoop_parseInfix G _ _ _ _ hs1 (by simp [Parser.peekPrecedence, hp1, hlow]) hi1, h1]
  simp only
  rw [infixLoop_stop G _ _ _ _ (stops_le G qc G.lowest hend (le_refl _))]

/-- Operators parsed by `parseInfix` nest to the left when the second does
not bind tighter than the first: `a op1 b op2 c` is `op2(op1(a, b), c)`. -/
theorem parseExpression_not_higher_nests_left (G : Grammar)
    (ka kb kc : Nat) (p qa qb qc : Parser) (a b c : Expression) (π1 π2 : Int)
    (ha : Operand G ka p a qa) (hb : Operand G kb qa.next.next b qb)
    (hc : Operand G kc qb.next.next c qc)
    (hi1 : G.infixes qa.peek.Typ = some .parseInfix)
    (hi2 : G.infixes qb.peek.Typ = some .parseInfix)
    (hs1 : qa.peek.Typ ≠ .Semi) (hs2 : qb.peek.Typ ≠ .Semi)
    (hp1 : G.precedences qa.peek.Typ = some π1) (hp2 : G.precedences qb.peek.Typ = some π2)
    (hlow1 : G.lowest < π1) (hlow2 : G.lowest < π2) (hle : π2 ≤ π1)
    (hend : Stops G qc.peek) (f : Nat) (hf : ka + kb + kc + 6 ≤ f) :
    parseExpression G f G.lowest p =
      .ok (.InfixExpression qb.peek qb.peek.Literal
        (.InfixExpression qa.peek qa.peek.Literal a b) c, qc) := by
  obtain ⟨j, rfl⟩ : ∃ j, f = j + 6 := ⟨f - 6, by omega⟩
  have h1 : parseInfix G (j + 4) a qa.next =
      .ok (.InfixExpression qa.peek qa.peek.Literal a b, qb) := by
    rw [parseInfix_succ]
    have hcur : qa.next.curPrecedence G = π1 := by
      simp [Parser.curPrecedence, Parser.next, hp1]
    have hcurTok : qa.next.cur = qa.peek := rfl
    rw [hcur, hcurTok, hb (j + 2) (by omega),
      infixLoop_stop G _ _ _ _ (Or.inr (by simp [Parser.peekPrecedence, hp2, hle]))]
  rw [ha (j + 5) (by omega),
    infixLoop_parseInfix G _ _ _ _ hs1 (by simp [Parser.peekPrecedence, hp1, hlow1]) hi1, h1]
  simp only
  rw [infixLoop_parseInfix G _ _ _ _ hs2 (by simp [Parser.peekPrecedence, hp2, hlow2]) hi2,
    parseInfix_last_operand G kc qb qc _ c π2 hc hp2 (by omega) hend (j + 3) (by omega)]
  simp only
  rw [infixLoop_stop G _ _ _ _ (stops_le G qc G.lowest hend (le_refl _))]

/-! ## `parseGroupedExpression` -/

theorem Parser.next_Errors (p : Parser) : p.next.Errors = p.Errors := rfl

theorem MoreElements.errors {G : Grammar} {q r : Parser} {ns : List Expression}
    (h : MoreElements G q ns r) : r.Errors = q.Errors := by
  induction h with
  | done q _ => rfl
  | step q n q' ns r _ hw _ ih => rw [ih, hw.2.2]; rfl

theorem expect_of_peek (p : Parser) (t : TokenType) (h : p.peek.Typ = t) :
    p.expect t = (true, p.next) := by
  simp [Parser.expect, Parser.peekIs, h]

theorem listLoop_more (G : Grammar) {q r : Parser} {ns : List Expression}
    (h : MoreElements G q ns r) (stop : TokenType) (hstop : r.peek.Typ = stop) :
    ∀ acc, ∃ f0, ∀ f, f0 ≤ f → listLoop G f stop acc q = .ok (acc ++ ns, r.next) := by
  induction h with
  | done q hq =>
    intro acc
    refine ⟨1, fun f hf => ?_⟩
    obtain ⟨j, rfl⟩ : ∃ j, f = j + 1 := ⟨f - 1, by omega⟩
    rw [listLoop]
    simp [Parser.peekIs, hq, expect_of_peek _ _ hstop]
  | step q n q' ns r hq hw _ ih =>
    intro acc
    obtain ⟨f1, h1⟩ := hw.1
    obtain ⟨f2, h2⟩ := ih hstop (acc ++ [n])
    refine ⟨max f1 f2 + 1, fun f hf => ?_⟩
    obtain ⟨j, rfl⟩ : ∃ j, f = j + 1 := ⟨f - 1, by omega⟩
    rw [listLoop]
    simp only [Parser.peekIs, hq, beq_self_eq_true, if_true]
    rw [h1 j (by omega : f1 ≤ j)]
    simp only
    rw [h2 j (by omega : f2 ≤ j)]
    simp

/-- C7.  `parseGroupedExpression` on `(` immediately followed by `)`
returns a tuple with no elements.  For a well-formed expression `e` (it does
not start with `)`, parses to the non-nil node `n` without an error) that is
followed by `)`, hence not by a comma, `parseGroupedExpression` on `( e )`
returns exactly `n`, not a tuple, for every large enough recursion budget;
the parser ends one token after the end of `e`, with the current token on
the closing `)`, and the error list as it was. -/
theorem parseGroupedExpression_unit_or_single (G : Grammar) :
    (∀ (p : Parser) (f : Nat), p.peek.Typ = .RightParen →
      parseGroupedExpression G (f + 1) p = .ok (.Tuple p.peek [], p.next)) ∧
    (∀ (p : Parser) (n : Expression) (q : Parser),
      p.peek.Typ ≠ .RightParen → WellFormed G p.next n q → q.peek.Typ = .RightParen →
      ∃ f0, ∀ f, f0 ≤ f →
        parseGroupedExpression G f p = .ok (n, q.next) ∧
        q.next.cur.Typ = .RightParen ∧
        q.next.input = q.input.tail ∧
        q.next.Errors = p.Errors) := by
  constructor
  · intro p f h
    rw [parseGroupedExpression]
    simp [Parser.curIs, Parser.next, h]
  · intro p n q hne hw hclose
    obtain ⟨f1, h1⟩ := hw.1
    refine ⟨f1 + 1, fun f hf => ⟨?_, ?_, rfl, ?_⟩⟩
    · obtain ⟨j, rfl⟩ : ∃ j, f = j + 1 := ⟨f - 1, by omega⟩
      rw [parseGroupedExpression]
      have hcur : p.next.curIs .RightParen = false := by
        simpa [Parser.curIs, Parser.next] using hne
      simp only [hcur, Bool.false_eq_true, if_false]
      rw [h1 j (by omega)]
      simp [Parser.peekIs, hclose, expect_of_peek _ _ hclose]
    · simpa [Parser.next] using hclose
    · rw [Parser.next_Errors, hw.2.2, Parser.next_Errors]

/-- C8.  For well-formed expressions `e1, ..., en` with `n >= 2` (the first
with node `n1`, the further ones with nodes `ns`, `ns` not empty),
`parseGroupedExpression` on `( e1 , e2 , ... , en )` returns, for every
large enough recursion budget, a tuple whose elements are exactly the
nodes of `e1, ..., en` in order; its token is the token of `e1`; the
parser ends on the closing `)` and the error list is as it was. -/
theorem parseGroupedExpression_tuple (G : Grammar) (p : Parser) (n1 : Expression)
    (q1 : Parser) (ns : List Expression) (r : Parser)
    (hne : p.peek.Typ ≠ .RightParen) (h1 : WellFormed G p.next n1 q1)
    (hmore : MoreElements G q1 ns r) (hns : ns ≠ []) (hclose : r.peek.Typ = .RightParen) :
    ∃ tok, n1.Token = some tok ∧
      ∃ f0, ∀ f, f0 ≤ f →
        parseGroupedExpression G f p = .ok (.Tuple tok (n1 :: ns), r.next) ∧
        r.next.Errors = p.Errors := by
  have htok : ∃ tok, n1.Token = some tok := by
    have := h1.2.1
    cases n1 <;> simp [Expression.Token] at this ⊢
  obtain ⟨tok, htok⟩ := htok
  refine ⟨tok, htok, ?_⟩
  cases hmore with
  | done _ _ => exact absurd rfl hns
  | step _ n2 q2 ns' _ hq hw2 hrest =>
    obtain ⟨f1, hf1⟩ := h1.1
    obtain ⟨f2, hf2⟩ := hw2.1
    obtain ⟨f3, hf3⟩ := listLoop_more G hrest .RightParen hclose [n2]
    refine ⟨max f1 (max f2 f3) + 3, fun f hf => ⟨?_, ?_⟩⟩
    · obtain ⟨j, rfl⟩ : ∃ j, f = j + 3 := ⟨f - 3, by omega⟩
      rw [parseGroupedExpression]
      have hcur : p.next.curIs .RightParen = false := by
        simpa [Parser.curIs, Parser.next] using hne
      simp only [hcur, Bool.false_eq_true, if_false]
      rw [hf1 (j + 2) (by omega)]
      simp only [Parser.peekIs, hq, beq_self_eq_true, if_true, htok]
      rw [parseExpressionList, hf2 (j + 1) (by omega)]
      simp only
      rw [hf3 (j + 1) (by omega)]
      simp
    · rw [Parser.next_Errors, hrest.errors, hw2.2.2, Parser.next_Errors, Parser.next_Errors,
        h1.2.2, Parser.next_Errors]

/-! ## The theorems on concrete token streams -/

/-- A one-token operand followed by a token at which the operator loop
stops is a well-formed expression. -/
theorem wellFormed_leaf (G : Grammar) (t : Token) (rest : List Token)
    (errs : List ParseError) (x : Expression) (hx : leafNode G t = some x)
    (hend : Stops G (rest.headD eofToken)) :
    WellFormed G ⟨t, rest.headD eofToken, rest.tail, errs⟩ x
      ⟨t, rest.headD eofToken, rest.tail, errs⟩ := by
  refine ⟨⟨2, fun f hf => ?_⟩, ?_, rfl⟩
  · obtain ⟨j, rfl⟩ : ∃ j, f = j + 2 := ⟨f - 2, by omega⟩
    exact parseExpression_last_leaf G t rest errs x G.lowest hx (le_refl _) hend j
  · unfold leafNode at hx
    intro hnull
    subst hnull
    cases hp : G.prefixes t.Typ with
    | none => simp [hp] at hx
    | some pre =>
      cases pre <;> simp only [hp, reduceCtorEq, Option.some.injEq] at hx
      cases hf : G.parseFloat t.Literal <;> simp [hf] at hx

/-- Witness of C5: `1 + 2 * 3` parses to `1 + (2 * 3)`. -/
theorem parseExpression_higher_precedence_binds_tighter_witness :
    parseExpression refGrammar 8 refGrammar.lowest
        ⟨numTok "1", opTok "+", [numTok "2", opTok "*", numTok "3"], []⟩ =
      .ok (.InfixExpression (opTok "+") "+" (number "1" 0x3FF0000000000000)
          (.InfixExpression (opTok "*") "*" (number "2" 0x4000000000000000)
            (number "3" 0x4008000000000000)),
        ⟨numTok "3", eofToken, [], []⟩) :=
  parseExpression_higher_precedence_binds_tighter refGrammar 0 0 0
    ⟨numTok "1", opTok "+", [numTok "2", opTok "*", numTok "3"], []⟩
    ⟨numTok "1", opTok "+", [numTok "2", opTok "*", numTok "3"], []⟩
    ⟨numTok "2", opTok "*", [numTok "3"], []⟩
    ⟨numTok "3", eofToken, [], []⟩
    (number "1" 0x3FF0000000000000) (number "2" 0x4000000000000000)
    (number "3" 0x4008000000000000) 4 5
    (operand_leaf refGrammar _ _ rfl) (operand_leaf refGrammar _ _ rfl)
    (operand_leaf refGrammar _ _ rfl)
    rfl rfl (by decide) (by decide) rfl rfl (by decide) (by decide)
    (Or.inr (by decide)) 8 (le_refl 8)

/-- Witness of C7: `()` is the empty tuple and `(1)` the bare number. -/
theorem parseGroupedExpression_unit_or_single_witness :
    parseGroupedExpression refGrammar (0 + 1) ⟨leftParen, rightParen, [], []⟩ =
        .ok (.Tuple rightParen [], ⟨rightParen, eofToken, [], []⟩) ∧
    ∃ f0, ∀ f, f0 ≤ f →
      parseGroupedExpression refGrammar f ⟨leftParen, numTok "1", [rightParen], []⟩ =
          .ok (number "1" 0x3FF0000000000000, ⟨rightParen, eofToken, [], []⟩) ∧
        (⟨rightParen, eofToken, [], []⟩ : Parser).cur.Typ = .RightParen ∧
        (⟨rightParen, eofToken, [], []⟩ : Parser).input = ([] : List Token).tail ∧
        (⟨rightParen, eofToken, [], []⟩ : Parser).Errors = [] :=
  ⟨(parseGroupedExpression_unit_or_single refGrammar).1
      ⟨leftParen, rightParen, [], []⟩ 0 rfl,
   (parseGroupedExpression_unit_or_single refGrammar).2
      ⟨leftParen, numTok "1", [rightParen], []⟩ (number "1" 0x3FF0000000000000)
      ⟨numTok "1", rightParen, [], []⟩ (by decide)
      (wellFormed_leaf refGrammar (numTok "1") [rightParen] []
        (number "1" 0x3FF0000000000000) rfl (Or.inr (by decide))) rfl⟩

/-- Witness of C8: `(1, 2)` is a tuple of the two numbers. -/
theorem parseGroupedExpression_tuple_witness :
    ∃ tok, (number "1" 0x3FF0000000000000).Token = some tok ∧
      ∃ f0, ∀ f, f0 ≤ f →
        parseGroupedExpression refGrammar f
            ⟨leftParen, numTok "1", [commaTok, numTok "2", rightParen], []⟩ =
          .ok (.Tuple tok [number "1" 0x3FF0000000000000, number "2" 0x4000000000000000],
            ⟨rightParen, eofToken, [], []⟩) ∧
        (⟨rightParen, eofToken, [], []⟩ : Parser).Errors = [] :=
  parseGroupedExpression_tuple refGrammar
    ⟨leftParen, numTok "1", [commaTok, numTok "2", rightParen], []⟩
    (number "1" 0x3FF0000000000000)
    ⟨numTok "1", commaTok, [numTok "2", rightParen], []⟩
    [number "2" 0x4000000000000000]
    ⟨numTok "2", rightParen, [], []⟩
    (by decide)
    (wellFormed_leaf refGrammar (numTok "1") [commaTok, numTok "2", rightParen] []
      (number "1" 0x3FF0000000000000) rfl (Or.inr (by decide)))
    (MoreElements.step _ (number "2" 0x4000000000000000) ⟨numTok "2", rightParen, [], []⟩ [] _
      rfl
      (wellFormed_leaf refGrammar (numTok "2") [rightParen] []
        (number "2" 0x4000000000000000) rfl (Or.inr (by decide)))
      (MoreElements.done _ (by decide)))
    (by simp) rfl

/-! ## Operand width of the jumps -/

/-- Overwriting the two bytes after an opcode. -/
theorem set_operands (A B : List Nat) (x y z h l : Nat) :
    ((A ++ x :: y :: z :: B).set (A.length + 1) h).set (A.length + 2) l =
      A ++ x :: h :: l :: B := by
  induction A with
  | nil => simp
  | cons a A ih => simp [ih]

/-- C11 (as amended).  Every `Jump` and `JumpUnless` instruction emitted by
`compileWhile` and `compileFor` consists of the opcode followed by exactly
two operand bytes, the high byte and then the low byte of an index into the
jump table.  For a successful `compileWhile` the code from the `JumpUnless`
on is `JumpUnless hi lo`, the body, `Jump hi lo`, `EndLoop`, the two indices
being those of the two entries the call appended to the jump table; for a
successful `compileFor` the code ends with `Jump hi lo`, `EndLoop`, the
iterator-pop, the index being that of the one entry the call appended. -/
theorem jumps_carry_two_operand_bytes (K : Env)
    (hC : AppendOnly K.CompileExpression) (hE : AppendOnly K.encloseExpression) :
    (∀ (Condition Body : Expression) (c c2 c4 : Compiler),
      K.CompileExpression Condition (c.push [StartLoop]) = (none, c2) →
      K.encloseExpression Body (c2.push [JumpUnless, 0, 0]) = (none, c4) →
      c4.Jumps.length + 1 < maxIndex →
      ∃ (c' : Compiler) (body : List Nat),
        compileWhile K Condition Body c = (none, c') ∧
        c4.Bytes = c2.Bytes ++ [JumpUnless, 0, 0] ++ body ∧
        c'.Bytes = c2.Bytes ++
          [JumpUnless, (runeToBytes (c4.Jumps.length + 1)).2,
            (runeToBytes (c4.Jumps.length + 1)).1] ++ body ++
          [Jump, (runeToBytes c4.Jumps.length).2, (runeToBytes c4.Jumps.length).1, EndLoop] ∧
        c'.Jumps = c4.Jumps ++ [c.Bytes.length, c4.Bytes.length + 3 + 1] ∧
        (runeToBytes c4.Jumps.length).2 * 256 + (runeToBytes c4.Jumps.length).1 =
          c4.Jumps.length ∧
        (runeToBytes (c4.Jumps.length + 1)).2 * 256 + (runeToBytes (c4.Jumps.length + 1)).1 =
          c4.Jumps.length + 1) ∧
    (∀ (tok : Token) (v : String) (Collection Body : Expression) (c c1 c3 : Compiler),
      K.CompileExpression Collection c = (none, c1) →
      ((c1.push [K.PushIter, StartLoop]).addName v).1.2 = none →
      K.CompileExpression Body
        (((c1.push [K.PushIter, StartLoop]).addName v).2.push
          [K.AdvIterFor, (runeToBytes ((c1.push [K.PushIter, StartLoop]).addName v).1.1).2,
            (runeToBytes ((c1.push [K.PushIter, StartLoop]).addName v).1.1).1]) = (none, c3) →
      c3.Jumps.length < maxIndex →
      ∃ c' : Compiler,
        compileFor K (.Identifier tok v) Collection Body c = (none, c') ∧
        c'.Bytes = c3.Bytes ++
          [Jump, (runeToBytes c3.Jumps.length).2, (runeToBytes c3.Jumps.length).1,
            EndLoop, K.PopIter] ∧
        c'.Jumps = c3.Jumps ++ [c1.Bytes.length + 2] ∧
        (runeToBytes c3.Jumps.length).2 * 256 + (runeToBytes c3.Jumps.length).1 =
          c3.Jumps.length) := by
  constructor
  · intro Condition Body c c2 c4 hcond hbody hroom
    obtain ⟨c5, hb5, hj5, hlen, hrun⟩ :=
      compileWhile_shape K hE Condition Body c c2 c4 hcond hbody (by omega)
    obtain ⟨t2, h2⟩ := hE _ _ _ hbody
    simp only [Compiler.push] at h2
    have hroom5 : c5.Jumps.length < maxIndex := by simp [hj5]; omega
    have hl5 : c5.Jumps.length = c4.Jumps.length + 1 := by simp [hj5]
    have hset : (c5.setJumpArg c2.Bytes.length (c4.Bytes.length + 3 + 1)).2 =
        { c5 with
          Jumps := c5.Jumps ++ [c4.Bytes.length + 3 + 1]
          Bytes := (c5.Bytes.set (c2.Bytes.length + 1) (runeToBytes c5.Jumps.length).2).set
            (c2.Bytes.length + 2) (runeToBytes c5.Jumps.length).1 } := by
      simp [Compiler.setJumpArg, Compiler.addJump, hroom5]
    refine ⟨_, t2, hrun, h2.symm, ?_, ?_, runeToBytes_decode _ (by omega),
      runeToBytes_decode _ hroom⟩
    · rw [hset]
      simp only [Compiler.push, hb5, hl5, ← h2, List.append_assoc, List.cons_append,
        List.nil_append]
      rw [set_operands]
      simp
    · rw [hset]
      simp [Compiler.push, hj5]
  · intro tok v Collection Body c c1 c3 hcoll hname hbody hroom
    obtain ⟨c', t, hrun, _, hb, hj⟩ :=
      compileFor_shape K hC tok v Collection Body c c1 c3 hcoll hname hbody hroom
    exact ⟨c', hrun, hb, hj, runeToBytes_decode _ hroom⟩

/-- Witness of C11 as amended: `while x { y }` and `for x in xs { y }`
compiled from the empty state. -/
theorem jumps_carry_two_operand_bytes_witness :
    (∃ (c' : Compiler) (body : List Nat),
      compileWhile refEnv (ident "x") (ident "y") Compiler.empty = (none, c') ∧
      [36, 2, 0, 0, 33, 0, 0, 29, 2, 0, 1, 30] = [36, 2, 0, 0] ++ [JumpUnless, 0, 0] ++ body ∧
      c'.Bytes = [36, 2, 0, 0] ++
        [JumpUnless, (runeToBytes (0 + 1)).2, (runeToBytes (0 + 1)).1] ++ body ++
        [Jump, (runeToBytes 0).2, (runeToBytes 0).1, EndLoop] ∧
      c'.Jumps = [] ++ [0, 12 + 3 + 1] ∧
      (runeToBytes 0).2 * 256 + (runeToBytes 0).1 = 0 ∧
      (runeToBytes (0 + 1)).2 * 256 + (runeToBytes (0 + 1)).1 = 0 + 1) ∧
    (∃ c' : Compiler,
      compileFor refEnv (.Identifier ⟨.Other "ID", "x"⟩ "x") (ident "xs") (ident "y")
        Compiler.empty = (none, c') ∧
      c'.Bytes = [2, 0, 0, 41, 36, 42, 0, 1, 2, 0, 2] ++
        [Jump, (runeToBytes 0).2, (runeToBytes 0).1, EndLoop, refEnv.PopIter] ∧
      c'.Jumps = [] ++ [3 + 2] ∧
      (runeToBytes 0).2 * 256 + (runeToBytes 0).1 = 0) :=
  ⟨(jumps_carry_two_operand_bytes refEnv refCompileExpression_appendOnly
      refEncloseExpression_appendOnly).1 (ident "x") (ident "y") Compiler.empty
      ⟨[36, 2, 0, 0], [], ["x"], []⟩
      ⟨[36, 2, 0, 0, 33, 0, 0, 29, 2, 0, 1, 30], [], ["x", "y"], []⟩
      (by decide) (by decide) (by decide),
   (jumps_carry_two_operand_bytes refEnv refCompileExpression_appendOnly
      refEncloseExpression_appendOnly).2 ⟨.Other "ID", "x"⟩ "x" (ident "xs") (ident "y")
      Compiler.empty ⟨[2, 0, 0], [], ["xs"], []⟩
      ⟨[2, 0, 0, 41, 36, 42, 0, 1, 2, 0, 2], [], ["xs", "x", "y"], []⟩
      (by decide) (by decide) (by decide) (by decide)⟩

/-- C11 fails as stated: in the code of `while x { y }` compiled from the
empty state the `JumpUnless` at offset 4 is followed by the two operand
bytes 0 and 1 before the body starts with `OpenScope` at offset 7, and the
closing `Jump` at offset 12 by the two operand bytes 0 and 0 before the
`EndLoop`; neither is an opcode with a single operand byte.  Read as a single
byte, the operand of the `JumpUnless` would select jump-table entry 0, the
loop start, instead of entry 1, the exit. -/
theorem jumps_one_operand_byte_counterexample :
    ∃ c', compileWhile refEnv (ident "x") (ident "y") Compiler.empty = (none, c') ∧
      (c'.Bytes.drop 4).take 4 = [JumpUnless, 0, 1, OpenScope] ∧
      c'.Bytes.drop 12 = [Jump, 0, 0, EndLoop] ∧
      c'.Jumps = [0, 16] ∧
      (¬ ∃ index, (c'.Bytes.drop 4).take 3 = [JumpUnless, index, OpenScope]) ∧
      (¬ ∃ index, c'.Bytes.drop 12 = [Jump, index, EndLoop]) :=
  ⟨⟨[36, 2, 0, 0, 33, 0, 1, 29, 2, 0, 1, 30, 31, 0, 0, 37], [], ["x", "y"], [0, 16]⟩,
    by decide, by decide, by decide, by decide,
    by rintro ⟨i, h⟩; simp [JumpUnless, OpenScope] at h,
    by rintro ⟨i, h⟩; simp [Jump, EndLoop] at h⟩

/-! ## The loop variable of `compileFor` -/

/-- With an identifier as loop variable, `compileFor` returns no error once
the collection and the body compile and the name and the jump-table entry
find room. -/
theorem compileFor_identifier_ok (K : Env) (tok : Token) (v : String)
    (Collection Body : Expression) (c c1 c3 : Compiler)
    (hcoll : K.CompileExpression Collection c = (none, c1))
    (hname : ((c1.push [K.PushIter, StartLoop]).addName v).1.2 = none)
    (hbody : K.CompileExpression Body
      (((c1.push [K.PushIter, StartLoop]).addName v).2.push
        [K.AdvIterFor, (runeToBytes ((c1.push [K.PushIter, StartLoop]).addName v).1.1).2,
          (runeToBytes ((c1.push [K.PushIter, StartLoop]).addName v).1.1).1]) = (none, c3))
    (hroom : c3.Jumps.length < maxIndex) :
    (compileFor K (.Identifier tok v) Collection Body c).1 = none := by
  unfold compileFor
  simp only [hcoll]
  generalize (c1.push [K.PushIter, StartLoop]).addName v = r at hname hbody
  obtain ⟨⟨idx, err⟩, c2⟩ := r
  simp only at hname hbody
  subst hname
  simp only [hbody]
  simp [Compiler.push, Compiler.addJump, hroom]

/-- With anything else as loop variable, `compileFor` stops right after
`StartLoop` with the loop-counter error. -/
theorem compileFor_not_identifier (K : Env) (Var Collection Body : Expression)
    (c c1 : Compiler) (hcoll : K.CompileExpression Collection c = (none, c1))
    (hvar : Var.isIdentifier = false) :
    compileFor K Var Collection Body c =
      (some "compiler: a for-loop counter must be an identifier",
        c1.push [K.PushIter, StartLoop]) := by
  cases Var <;> first
    | (simp [Expression.isIdentifier] at hvar; done)
    | simp [compileFor, hcoll]

/-- C12.  When the collection compiles and, for an identifier as loop
variable, the name finds room in the pool, the body compiles and the jump
table has room, `compileFor` returns the error
"compiler: a for-loop counter must be an identifier" if and only if the loop
variable node is not a plain identifier; and in that case the state it
leaves is the state after the collection with just the iterator-push opcode
and `StartLoop` appended: no advance-iterator instruction, no `Jump`, no
`EndLoop` and no iterator-pop was emitted, and no pool was touched. -/
theorem compileFor_invalid_counter_iff (K : Env) (Var Collection Body : Expression)
    (c c1 : Compiler)
    (hcoll : K.CompileExpression Collection c = (none, c1))
    (hrest : ∀ tok v, Var = .Identifier tok v →
      ((c1.push [K.PushIter, StartLoop]).addName v).1.2 = none ∧
      ∃ c3, K.CompileExpression Body
        (((c1.push [K.PushIter, StartLoop]).addName v).2.push
          [K.AdvIterFor, (runeToBytes ((c1.push [K.PushIter, StartLoop]).addName v).1.1).2,
            (runeToBytes ((c1.push [K.PushIter, StartLoop]).addName v).1.1).1]) = (none, c3) ∧
        c3.Jumps.length < maxIndex) :
    ((compileFor K Var Collection Body c).1 =
        some "compiler: a for-loop counter must be an identifier" ↔
      Var.isIdentifier = false) ∧
    (Var.isIdentifier = false →
      (compileFor K Var Collection Body c).2 = c1.push [K.PushIter, StartLoop]) := by
  constructor
  · constructor
    · intro herr
      cases hv : Var.isIdentifier with
      | false => rfl
      | true =>
        cases Var <;> simp [Expression.isIdentifier] at hv
        rename_i tok v
        obtain ⟨hname, c3, hbody, hroom⟩ := hrest tok v rfl
        rw [compileFor_identifier_ok K tok v Collection Body c c1 c3 hcoll hname hbody hroom]
          at herr
        cases herr
    · intro hvar
      rw [compileFor_not_identifier K Var Collection Body c c1 hcoll hvar]
  · intro hvar
    rw [compileFor_not_identifier K Var Collection Body c c1 hcoll hvar]

/-- Witness of C12: `for 1 in xs { y }` fails with the loop-counter error
after emitting just the iterator-push and `StartLoop`; `for x in xs { y }`
does not fail. -/
theorem compileFor_invalid_counter_iff_witness :
    ((compileFor refEnv (number "1" 0x3FF0000000000000) (ident "xs") (ident "y")
        Compiler.empty).1 = some "compiler: a for-loop counter must be an identifier" ∧
      (compileFor refEnv (number "1" 0x3FF0000000000000) (ident "xs") (ident "y")
        Compiler.empty).2 = ⟨[2, 0, 0, 41, 36], [], ["xs"], []⟩) ∧
    (compileFor refEnv (ident "x") (ident "xs") (ident "y") Compiler.empty).1 ≠
      some "compiler: a for-loop counter must be an identifier" :=
  ⟨⟨(compileFor_invalid_counter_iff refEnv (number "1" 0x3FF0000000000000) (ident "xs")
        (ident "y") Compiler.empty ⟨[2, 0, 0], [], ["xs"], []⟩ (by decide)
        (by intro tok v h; cases h)).1.mpr rfl,
     (compileFor_invalid_counter_iff refEnv (number "1" 0x3FF0000000000000) (ident "xs")
        (ident "y") Compiler.empty ⟨[2, 0, 0], [], ["xs"], []⟩ (by decide)
        (by intro tok v h; cases h)).2 rfl⟩,
   fun h => absurd
    ((compileFor_invalid_counter_iff refEnv (ident "x") (ident "xs") (ident "y")
        Compiler.empty ⟨[2, 0, 0], [], ["xs"], []⟩ (by decide)
        (by
          intro tok v h
          cases h
          exact ⟨by decide,
            ⟨[2, 0, 0, 41, 36, 42, 0, 1, 2, 0, 2], [], ["xs", "x", "y"], []⟩,
            by decide, by decide⟩)).1.mp h)
    (by decide)⟩

/-! ## `compileExport` validates before it emits -/

/-- The only error the emission loop of `compileExport` can return is the
one of `addName`. -/
theorem emitExports_error (K : Env) : ∀ (ns : List String) (c : Compiler) (msg : String),
    (emitExports K ns c).1 = some msg → msg = "compiler: name index out of range" := by
  intro ns
  induction ns with
  | nil => intro c msg h; simp [emitExports] at h
  | cons n rest ih =>
    intro c msg h
    unfold emitExports Compiler.addName at h
    split_ifs at h
    · exact ih _ msg h
    · exact ih _ msg h
    · simp at h; exact h.symm

/-- C20.  `compileExport` validates before it emits: whenever it returns the
error "compiler: can only export identifiers, or a tuple thereof", the
compiler state after the call is the state before it: the byte sequence, the
name pool and the jump table (and the constant pool) are unchanged.  The
error is returned for every target that is not an identifier or a comma
chain of identifiers, so also for a chain whose first elements are
identifiers and a later one is not. -/
theorem compileExport_error_leaves_state (K : Env) (e : Expression) (c : Compiler)
    (herr : (compileExport K e c).1 =
      some "compiler: can only export identifiers, or a tuple thereof") :
    (compileExport K e c).2 = c ∧ chainNames e = none := by
  rw [compileExport_eq] at herr ⊢
  cases h : chainNames e with
  | none => simp
  | some ns =>
    rw [h] at herr
    have := emitExports_error K ns c _ herr
    exact absurd this (by decide)

/-- Witness of C20: `export a, 1` from a state with code, a name and a jump
entry returns the error and leaves that state. -/
theorem compileExport_error_leaves_state_witness :
    (compileExport refEnv (comma (ident "a") (number "1" 0x3FF0000000000000))
        ⟨[2, 0, 0], [], ["b"], [7]⟩).2 = ⟨[2, 0, 0], [], ["b"], [7]⟩ ∧
      chainNames (comma (ident "a") (number "1" 0x3FF0000000000000)) = none :=
  compileExport_error_leaves_state refEnv
    (comma (ident "a") (number "1" 0x3FF0000000000000)) ⟨[2, 0, 0], [], ["b"], [7]⟩
    (by decide)

/-! ## Empty list and empty map -/

/-- C13.  `parseList` on `[` immediately followed by `]` returns a list
node with zero elements, for every recursion budget from 1 on.  At budget 1
a call of the general expression-list parser can only fault, so the result
is produced without that parser; the parser has advanced by one token and
has the `]` as current token, and the error list is as it was. -/
theorem parseList_empty (G : Grammar) (p : Parser) (h : p.peek.Typ = .RightSquare) :
    (∀ f, parseList G (f + 1) p = .ok (.List p.peek [], p.next)) ∧
    parseExpressionList G 0 .RightSquare p.next = .error .outOfFuel ∧
    p.next.cur = p.peek ∧ p.next.cur.Typ = .RightSquare ∧
    p.next.input = p.input.tail ∧ p.next.Errors = p.Errors := by
  refine ⟨fun f => ?_, ?_, rfl, h, rfl, rfl⟩
  · rw [parseList]
    simp [Parser.curIs, Parser.next, h]
  · rw [parseExpressionList]

/-- Witness of C13: the tokens `[ ]`. -/
theorem parseList_empty_witness :
    (∀ f, parseList refGrammar (f + 1) ⟨leftSquare, rightSquare, [], []⟩ =
      .ok (.List rightSquare [], ⟨rightSquare, eofToken, [], []⟩)) ∧
    parseExpressionList refGrammar 0 .RightSquare ⟨rightSquare, eofToken, [], []⟩ =
      .error .outOfFuel ∧
    (⟨rightSquare, eofToken, [], []⟩ : Parser).cur = rightSquare ∧
    (⟨rightSquare, eofToken, [], []⟩ : Parser).cur.Typ = .RightSquare ∧
    (⟨rightSquare, eofToken, [], []⟩ : Parser).input = ([] : List Token).tail ∧
    (⟨rightSquare, eofToken, [], []⟩ : Parser).Errors = [] :=
  parseList_empty refGrammar ⟨leftSquare, rightSquare, [], []⟩ rfl

/-- C14, the code at the failing input.  With the map keyword as current
token and the tokens `{` `}` after it, `parseMap` first advances onto
the opening brace and then requires another opening brace as next token;
the next token being the closing brace, it records an error and returns the
nil node, for every grammar and every recursion budget from 1 on. -/
theorem parseMap_empty_body_fails (G : Grammar) (f : Nat) :
    parseMap G (f + 1) ⟨mapTok, leftBrace, [rightBrace], []⟩ =
      .ok (.null, ⟨leftBrace, rightBrace, [], [.Expected .LeftBrace .RightBrace]⟩) := by
  rw [parseMap]
  rfl

/-! ## Missing parsers -/

/-- C16.  In every parser state in which the kind of the current token has
no registered prefix parser, `parseExpression`, at any precedence and with
any recursion budget from 1 on, returns the nil node; the state it leaves
differs from the one it started in only by one unexpected-token error (for
that token kind) appended to the error list: current token, next token and
remaining input are the same, so no token was consumed. -/
theorem parseExpression_without_prefixParser (G : Grammar) (f : Nat) (precedence : Int)
    (p : Parser) (h : G.prefixes p.cur.Typ = none) :
    parseExpression G (f + 1) precedence p =
      .ok (.null, ⟨p.cur, p.peek, p.input, p.Errors ++ [.UnexpectedToken p.cur.Typ]⟩) := by
  rw [parseExpression]
  simp [h, Parser.unexpectedTokenErr]

/-- Witness of C16: `)` as current token. -/
theorem parseExpression_without_prefixParser_witness :
    parseExpression refGrammar (0 + 1) 4 ⟨rightParen, numTok "2", [rightBrace], []⟩ =
      .ok (.null, ⟨rightParen, numTok "2", [rightBrace], [] ++ [.UnexpectedToken .RightParen]⟩) :=
  parseExpression_without_prefixParser refGrammar 0 4
    ⟨rightParen, numTok "2", [rightBrace], []⟩ rfl

theorem infixLoop_without_infixParser (G : Grammar) (f : Nat) (prec : Int) (left : Expression)
    (p : Parser) (h : G.infixes p.peek.Typ = none) :
    infixLoop G (f + 1) prec left p = .ok (left, p) := by
  rw [infixLoop]
  split_ifs <;> simp [h]

/-- C17 (as amended).  When, after a left operand has been parsed, the next
token has no registered infix parser (also when it is not a statement
terminator and has precedence above the minimum), `parseExpression` leaves
its operator loop and returns the left operand parsed so far, at every
precedence; the parser stays in the state reached at the end of the
operand: no error is recorded and the token is not consumed. -/
theorem parseExpression_without_infixParser (G : Grammar) (k : Nat) (p q : Parser)
    (a : Expression) (precedence : Int) (ha : Operand G k p a q)
    (hnone : G.infixes q.peek.Typ = none) (f : Nat) (hf : k + 2 ≤ f) :
    parseExpression G f precedence p = .ok (a, q) := by
  obtain ⟨j, rfl⟩ : ∃ j, f = j + 2 := ⟨f - 2, by omega⟩
  rw [ha (j + 1) (by omega), infixLoop_without_infixParser G j precedence a q hnone]

/-- Witness of C17 as amended: `1 % 2` where `%` has precedence 5 and no
infix parser. -/
theorem parseExpression_without_infixParser_witness :
    parseExpression gapGrammar 2 gapGrammar.lowest ⟨numTok "1", opTok "%", [numTok "2"], []⟩ =
      .ok (number "1" 0x3FF0000000000000, ⟨numTok "1", opTok "%", [numTok "2"], []⟩) :=
  parseExpression_without_infixParser gapGrammar 0
    ⟨numTok "1", opTok "%", [numTok "2"], []⟩ ⟨numTok "1", opTok "%", [numTok "2"], []⟩
    (number "1" 0x3FF0000000000000) gapGrammar.lowest
    (operand_leaf gapGrammar _ _ rfl) rfl 2 (le_refl 2)

/-- C17 fails as stated: in `1 % 2`, with `%` of precedence 5 above the
minimum 1, not a statement terminator and without an infix parser, the
`%` follows the parsed operand `1`; `parseExpression` returns the node of
`1`, not the nil node, and the error list stays empty. -/
theorem parseExpression_without_infixParser_counterexample :
    gapGrammar.infixes (opTok "%").Typ = none ∧
    (opTok "%").Typ ≠ .Semi ∧
    gapGrammar.lowest < (gapGrammar.precedences (opTok "%").Typ).getD gapGrammar.lowest ∧
    parseExpression gapGrammar 2 gapGrammar.lowest ⟨numTok "1", opTok "%", [numTok "2"], []⟩ =
      .ok (.Number (numTok "1") ⟨0x3FF0000000000000⟩,
        ⟨numTok "1", opTok "%", [numTok "2"], []⟩) ∧
    ¬ ∃ (f : Nat) (q : Parser),
      parseExpression gapGrammar f gapGrammar.lowest
        ⟨numTok "1", opTok "%", [numTok "2"], []⟩ = .ok (.null, q) := by
  refine ⟨rfl, by decide, by decide, rfl, ?_⟩
  rintro ⟨f, q, h⟩
  by_cases hf : 2 ≤ f
  · rw [parseExpression_without_infixParser gapGrammar 0
      ⟨numTok "1", opTok "%", [numTok "2"], []⟩ ⟨numTok "1", opTok "%", [numTok "2"], []⟩
      (number "1" 0x3FF0000000000000) gapGrammar.lowest
      (operand_leaf gapGrammar _ _ rfl) rfl f hf] at h
    simp [number] at h
  · have hfuel : parseExpression gapGrammar f gapGrammar.lowest
        ⟨numTok "1", opTok "%", [numTok "2"], []⟩ = .error .outOfFuel := by
      have hlt : f < 2 := by omega
      interval_cases f <;> rfl
    rw [hfuel] at h
    cases h

/-! ## `parseBlock` -/

/-- The statement list the loop of `parseBlock` builds: the results of the
`parseStatement` calls without the nil ones, after what it started with. -/
theorem blockLoop_run (G : Grammar) {p r : Parser} {rs : List Statement}
    (h : BlockRun G p rs r) :
    ∀ stmts, ∃ f0, ∀ f, f0 ≤ f →
      blockLoop G f stmts p = .ok (stmts ++ rs.filter (fun s => !s.isNull), r) := by
  induction h with
  | stop p hp =>
    intro stmts
    refine ⟨1, fun f hf => ?_⟩
    obtain ⟨j, rfl⟩ : ∃ j, f = j + 1 := ⟨f - 1, by omega⟩
    rw [blockLoop]
    have hcond : (!p.curIs .RightBrace && !p.curIs .EOF) = false := by
      rw [← Bool.not_or, hp]; rfl
    simp [hcond]
  | step p s q rs r hp hs _ ih =>
    intro stmts
    obtain ⟨f1, h1⟩ := hs
    have hcond : (!p.curIs .RightBrace && !p.curIs .EOF) = true := by
      rw [← Bool.not_or, hp]; rfl
    cases s with
    | null =>
      obtain ⟨f2, h2⟩ := ih stmts
      refine ⟨max f1 f2 + 1, fun f hf => ?_⟩
      obtain ⟨j, rfl⟩ : ∃ j, f = j + 1 := ⟨f - 1, by omega⟩
      rw [blockLoop]
      simp only [hcond, if_true]
      rw [h1 j (by omega)]
      simp only
      rw [h2 j (by omega)]
      simp [Statement.isNull]
    | ExpressionStatement _ | Return _ | Next | Break | While _ _ | For _ _ _ | Export _
    | Other _ =>
      obtain ⟨f2, h2⟩ := ih (stmts ++ [_])
      refine ⟨max f1 f2 + 1, fun f hf => ?_⟩
      obtain ⟨j, rfl⟩ : ∃ j, f = j + 1 := ⟨f - 1, by omega⟩
      rw [blockLoop]
      simp only [hcond, if_true]
      rw [h1 j (by omega)]
      simp only
      rw [h2 j (by omega)]
      simp [Statement.isNull]

/-- The loop of `parseBlock` ends on a closing brace or the end of input. -/
theorem BlockRun.ends {G : Grammar} {p r : Parser} {rs : List Statement}
    (h : BlockRun G p rs r) : (r.curIs .RightBrace || r.curIs .EOF) = true := by
  induction h with
  | stop p hp => exact hp
  | step _ _ _ _ _ _ _ _ ih => exact ih

/-- What `parseBlock` does when every call returns.  Let the loop of
`parseBlock`, entered after the opening token, make the `parseStatement`
calls with results `rs` (nil or not) up to the closing brace or the end of
input, where the parser is in state `r`, none of the calls faulting.  Then,
for every large enough recursion budget, `parseBlock` returns the block
whose statement list is `rs` without its nil entries, in the same order,
and ends in state `r`: the list has no nil entry, a statement that fails to
parse is left out, every other statement is kept, and the errors the calls
recorded are those of `r`. -/
theorem parseBlock_keeps_non_nil_statements (G : Grammar) (p r : Parser)
    (rs : List Statement) (hrun : BlockRun G p.next rs r) :
    (∃ f0, ∀ f, f0 ≤ f →
      parseBlock G f p = .ok (.Block p.cur (rs.filter (fun s => !s.isNull)), r)) ∧
    (∀ s ∈ rs.filter (fun s => !s.isNull), s ≠ .null) ∧
    (∀ s ∈ rs, s ≠ .null → s ∈ rs.filter (fun s => !s.isNull)) ∧
    (r.curIs .RightBrace || r.curIs .EOF) = true := by
  refine ⟨?_, ?_, ?_, hrun.ends⟩
  · obtain ⟨f1, h1⟩ := blockLoop_run G hrun []
    refine ⟨f1 + 1, fun f hf => ?_⟩
    obtain ⟨j, rfl⟩ : ∃ j, f = j + 1 := ⟨f - 1, by omega⟩
    rw [parseBlock, h1 j (by omega)]
    simp
  · intro s hs hnull
    subst hnull
    simp [Statement.isNull] at hs
  · intro s hs hnull
    rw [List.mem_filter]
    refine ⟨hs, ?_⟩
    cases s <;> simp [Statement.isNull] at hnull ⊢

theorem refGrammar_parseStatement (pe : Int → Parser → Except Fault (Expression × Parser))
    (p : Parser) :
    refGrammar.parseStatement pe p =
      (match pe 1 p with
      | Except.error e => Except.error e
      | Except.ok (Expression.null, p) => Except.ok (Statement.null, p)
      | Except.ok (e, p) => Except.ok (Statement.ExpressionStatement e, p)) := rfl

/-- In `refGrammar` a statement is an expression parsed at the lowest
level; a non-nil node makes an expression statement. -/
theorem refGrammar_statement (p q : Parser) (n : Expression) (f0 : Nat)
    (h : ∀ f, f0 ≤ f → parseExpression refGrammar f 1 p = .ok (n, q)) (hn : n ≠ .null) :
    StatementAt refGrammar p (.ExpressionStatement n) q := by
  refine ⟨f0, fun f hf => ?_⟩
  rw [refGrammar_parseStatement, h f hf]
  cases n <;> first | exact absurd rfl hn | rfl

/-- In `refGrammar` the nil node of a failed expression makes the nil
statement. -/
theorem refGrammar_statement_nil (p q : Parser) (f0 : Nat)
    (h : ∀ f, f0 ≤ f → parseExpression refGrammar f 1 p = .ok (.null, q)) :
    StatementAt refGrammar p .null q := by
  refine ⟨f0, fun f hf => ?_⟩
  rw [refGrammar_parseStatement, h f hf]

/-- An instance where every call returns: in the block `{ 1 ) 2 }` the
statement `)` fails to parse with a nil node; the block holds the statements
`1` and `2` and the error list the unexpected-token error. -/
theorem parseBlock_keeps_non_nil_statements_witness :
    (∃ f0, ∀ f, f0 ≤ f →
      parseBlock refGrammar f
          ⟨leftBrace, numTok "1", [rightParen, numTok "2", rightBrace], []⟩ =
        .ok (.Block leftBrace
            ([Statement.ExpressionStatement (number "1" 0x3FF0000000000000), .null,
              .ExpressionStatement (number "2" 0x4000000000000000)].filter
                (fun s => !s.isNull)),
          ⟨rightBrace, eofToken, [], [.UnexpectedToken .RightParen]⟩)) ∧
    (∀ s ∈ [Statement.ExpressionStatement (number "1" 0x3FF0000000000000), .null,
        .ExpressionStatement (number "2" 0x4000000000000000)].filter (fun s => !s.isNull),
      s ≠ .null) ∧
    (∀ s ∈ [Statement.ExpressionStatement (number "1" 0x3FF0000000000000), .null,
        .ExpressionStatement (number "2" 0x4000000000000000)],
      s ≠ .null → s ∈ [Statement.ExpressionStatement (number "1" 0x3FF0000000000000), .null,
        .ExpressionStatement (number "2" 0x4000000000000000)].filter (fun s => !s.isNull)) ∧
    ((⟨rightBrace, eofToken, [], [.UnexpectedToken .RightParen]⟩ : Parser).curIs .RightBrace ||
      (⟨rightBrace, eofToken, [], [.UnexpectedToken .RightParen]⟩ : Parser).curIs .EOF) = true :=
  parseBlock_keeps_non_nil_statements refGrammar
    ⟨leftBrace, numTok "1", [rightParen, numTok "2", rightBrace], []⟩
    ⟨rightBrace, eofToken, [], [.UnexpectedToken .RightParen]⟩
    [.ExpressionStatement (number "1" 0x3FF0000000000000), .null,
      .ExpressionStatement (number "2" 0x4000000000000000)]
    (BlockRun.step _ _ ⟨numTok "1", rightParen, [numTok "2", rightBrace], []⟩ _ _ rfl
      (refGrammar_statement _ _ _ 2
        (fun f hf => by
          obtain ⟨j, rfl⟩ : ∃ j, f = j + 2 := ⟨f - 2, by omega⟩
          exact parseExpression_last_leaf refGrammar (numTok "1")
            [rightParen, numTok "2", rightBrace] [] (number "1" 0x3FF0000000000000) 1 rfl
            (le_refl _) (Or.inr (by decide)) j)
        (by simp [number]))
      (BlockRun.step _ _
        ⟨rightParen, numTok "2", [rightBrace], [.UnexpectedToken .RightParen]⟩ _ _ rfl
        (refGrammar_statement_nil _ _ 1
          (fun f hf => by
            obtain ⟨j, rfl⟩ : ∃ j, f = j + 1 := ⟨f - 1, by omega⟩
            exact parseExpression_without_prefixParser refGrammar j 1
              ⟨rightParen, numTok "2", [rightBrace], []⟩ rfl))
        (BlockRun.step _ _
          ⟨numTok "2", rightBrace, [], [.UnexpectedToken .RightParen]⟩ _ _ rfl
          (refGrammar_statement _ _ _ 2
            (fun f hf => by
              obtain ⟨j, rfl⟩ : ∃ j, f = j + 2 := ⟨f - 2, by omega⟩
              exact parseExpression_last_leaf refGrammar (numTok "2")
                [rightBrace] [.UnexpectedToken .RightParen]
                (number "2" 0x4000000000000000) 1 rfl
                (le_refl _) (Or.inr (by decide)) j)
            (by simp [number]))
          (BlockRun.stop _ rfl))))

/-! ## `parseIfExpression` -/

/-- C18, the code at the failing input.  On the tokens `if x then y`, with
identifiers read by `parseID` and no prefix parser for `then`,
`parseIfExpression` parses the condition `x`, advances onto `then` and
parses the consequence starting on the `then` token itself: the node it
returns has the nil node as consequence (and no alternative), an
unexpected-token error for `then` is recorded, and the parser stops on
`then` with `y` unread.  This holds for every recursion budget from 3 on. -/
theorem parseIfExpression_consequence_starts_on_then (k : Nat) :
    parseIfExpression refGrammar (k + 3) ⟨ifTok, idTok "x", [thenTok, idTok "y"], []⟩ =
      .ok (.IfExpression ifTok (ident "x") .null .null,
        ⟨thenTok, idTok "y", [], [.UnexpectedToken .Then]⟩) := by
  have h1 : parseExpression refGrammar (k + 2) refGrammar.lowest
      ⟨idTok "x", thenTok, [idTok "y"], []⟩ =
        .ok (ident "x", ⟨idTok "x", thenTok, [idTok "y"], []⟩) :=
    parseExpression_last_leaf refGrammar (idTok "x") [thenTok, idTok "y"] [] (ident "x")
      refGrammar.lowest rfl (le_refl _) (Or.inr (by decide)) k
  have h2 : parseExpression refGrammar (k + 1 + 1) refGrammar.lowest
      ⟨thenTok, idTok "y", [], []⟩ =
        .ok (.null, ⟨thenTok, idTok "y", [], [] ++ [.UnexpectedToken .Then]⟩) :=
    parseExpression_without_prefixParser refGrammar (k + 1) refGrammar.lowest
      ⟨thenTok, idTok "y", [], []⟩ rfl
  have hn : Parser.next ⟨ifTok, idTok "x", [thenTok, idTok "y"], []⟩ =
      ⟨idTok "x", thenTok, [idTok "y"], []⟩ := rfl
  have he : Parser.expect ⟨idTok "x", thenTok, [idTok "y"], []⟩ .Then =
      (true, ⟨thenTok, idTok "y", [], []⟩) := rfl
  rw [parseIfExpression, hn, h1]
  simp only [he]
  rw [h2]
  rfl

/-! ## Operators of equal precedence -/

/-- C19.  Binary operators of equal precedence associate to the left: for
operands `a`, `b`, `c` and binary operators `op1`, `op2` (tokens the infix
table sends to `parseInfix`) with the same precedence in the table, above
`lowest`, `parseExpression(lowest)` on `a op1 b op2 c`, followed by a token
at which the operator loop stops, returns `op2(op1(a, b), c)` for every
large enough recursion budget.  (`qa`, `qb`, `qc` are the parser states at
the end of the three operands; `op1` is the token after `a`, `op2` the token
after `b`.) -/
theorem parseExpression_equal_precedence_nests_left (G : Grammar)
    (ka kb kc : Nat) (p qa qb qc : Parser) (a b c : Expression) (π : Int)
    (ha : Operand G ka p a qa) (hb : Operand G kb qa.next.next b qb)
    (hc : Operand G kc qb.next.next c qc)
    (hi1 : G.infixes qa.peek.Typ = some .parseInfix)
    (hi2 : G.infixes qb.peek.Typ = some .parseInfix)
    (hs1 : qa.peek.Typ ≠ .Semi) (hs2 : qb.peek.Typ ≠ .Semi)
    (hp1 : G.precedences qa.peek.Typ = some π) (hp2 : G.precedences qb.peek.Typ = some π)
    (hlow : G.lowest < π)
    (hend : Stops G qc.peek) (f : Nat) (hf : ka + kb + kc + 6 ≤ f) :
    parseExpression G f G.lowest p =
      .ok (.InfixExpression qb.peek qb.peek.Literal
        (.InfixExpression qa.peek qa.peek.Literal a b) c, qc) :=
  parseExpression_not_higher_nests_left G ka kb kc p qa qb qc a b c π π
    ha hb hc hi1 hi2 hs1 hs2 hp1 hp2 hlow hlow (le_refl _) hend f hf

/-- Witness of C19: `1 + 2 - 3`, with `+` and `-` both of precedence 4,
parses to `(1 + 2) - 3`. -/
theorem parseExpression_equal_precedence_nests_left_witness :
    parseExpression sumGrammar 6 sumGrammar.lowest
        ⟨numTok "1", opTok "+", [numTok "2", opTok "-", numTok "3"], []⟩ =
      .ok (.InfixExpression (opTok "-") "-"
          (.InfixExpression (opTok "+") "+" (number "1" 0x3FF0000000000000)
            (number "2" 0x4000000000000000))
          (number "3" 0x4008000000000000),
        ⟨numTok "3", eofToken, [], []⟩) :=
  parseExpression_equal_precedence_nests_left sumGrammar 0 0 0
    ⟨numTok "1", opTok "+", [numTok "2", opTok "-", numTok "3"], []⟩
    ⟨numTok "1", opTok "+", [numTok "2", opTok "-", numTok "3"], []⟩
    ⟨numTok "2", opTok "-", [numTok "3"], []⟩
    ⟨numTok "3", eofToken, [], []⟩
    (number "1" 0x3FF0000000000000) (number "2" 0x4000000000000000)
    (number "3" 0x4008000000000000) 4
    (operand_leaf sumGrammar _ _ rfl) (operand_leaf sumGrammar _ _ rfl)
    (operand_leaf sumGrammar _ _ rfl)
    rfl rfl (by decide) (by decide) rfl rfl (by decide) (Or.inr (by decide)) 6 (le_refl 6)

/-! ## A malformed statement that takes the block with it -/

/-- C15, the code at the failing input.  In the block `{ ( + , 2 ) 3 }`,
with one expression statement per statement, the first statement is
malformed: `parseGroupedExpression` gets the nil node for `+` (which has no
prefix parser; the error is recorded), sees the comma, and builds the tuple
with `Tok: node.Token()` on that nil node.  The nil dereference is not
caught by `parseStatement` or `parseBlock`: for every recursion budget from
5 on `parseBlock` ends in that fault, and below 5 the budget runs out, so
for no budget is a block returned, and the well-formed statement `3` is
lost with it. -/
theorem parseBlock_malformed_tuple_faults :
    (∀ k, parseBlock refGrammar (k + 5)
        ⟨leftBrace, leftParen,
          [opTok "+", commaTok, numTok "2", rightParen, numTok "3", rightBrace], []⟩ =
      .error .nilDereference) ∧
    (∀ f, parseBlock refGrammar f
        ⟨leftBrace, leftParen,
          [opTok "+", commaTok, numTok "2", rightParen, numTok "3", rightBrace], []⟩ =
        .error .nilDereference ∨
      parseBlock refGrammar f
        ⟨leftBrace, leftParen,
          [opTok "+", commaTok, numTok "2", rightParen, numTok "3", rightBrace], []⟩ =
        .error .outOfFuel) := by
  have hk : ∀ k, parseBlock refGrammar (k + 5)
      ⟨leftBrace, leftParen,
        [opTok "+", commaTok, numTok "2", rightParen, numTok "3", rightBrace], []⟩ =
      .error .nilDereference := by
    intro k
    rfl
  refine ⟨hk, fun f => ?_⟩
  by_cases hf : 5 ≤ f
  · obtain ⟨k, rfl⟩ : ∃ k, f = k + 5 := ⟨f - 5, by omega⟩
    exact Or.inl (hk k)
  · have hlt : f < 5 := by omega
    right
    interval_cases f <;> rfl

end Lang
